import Mathlib

/-!
Verification of `etl-for-all-studies` against its specification.

The Python modules under `src/etl_for_all_studies/` and `src/etl/` are
shallowly embedded: pure functions become Lean functions, machine floats
become `ℚ` (or `ℝ` where the source takes square roots), fallible
operations return `Option`/`Except`, and the SQLAlchemy tables become
association lists.  Each embedded definition cites the source lines it
models.
-/

namespace EtlForAllStudies

/-! ## Expression processing (`expression_processing.py`) -/

/-- `ExpressionRow` (expression_processing.py lines 12–17).  The float
`expression_value` is modelled as a rational. -/
structure ExpressionRow where
  gene_id : String
  sample_accession : String
  expression_value : ℚ
  sample_index : ℕ
deriving DecidableEq, Repr

/-- Inner loop of `iter_filtered_expression` (lines 86–109): walk
`enumerate(zip(sample_headers, row[1:]))` carrying the running index `idx`,
skip columns not in `sample_columns`, skip `idx < resume_sample_index`
inside the resume gene's row, skip cells whose `float(...)` parse failed
(modelled as `none`), and yield the remaining cells. -/
def emitCells (gene_id : String) (sample_columns : List String)
    (resume_gene : Option String) (resume_sample_index : ℕ) :
    ℕ → List (String × Option ℚ) → List ExpressionRow
  | _, [] => []
  | idx, (sample_name, value) :: rest =>
    let tail := emitCells gene_id sample_columns resume_gene resume_sample_index
      (idx + 1) rest
    if sample_name ∉ sample_columns then tail
    else if resume_gene = some gene_id ∧ idx < resume_sample_index then tail
    else
      match value with
      | none => tail
      | some v => ⟨gene_id, sample_name, v, idx⟩ :: tail

/-- Outer loop of `iter_filtered_expression` (lines 69–113).  A data row is
modelled as its stripped gene id paired with its parsed cells (an empty
physical row is `("", [])`, matching the `not row` / empty-gene skips).
The loop state is the `resume_reached` flag together with the function's
`resume_gene` / `resume_sample_index` locals, which are cleared after the
resume gene's row has been processed (lines 111–113); note that the clear
is skipped when the resume gene is filtered out by `allowed_genes`. -/
def iterRows (sample_columns allowed_genes sample_headers : List String) :
    List (String × List (Option ℚ)) → Bool → Option String → ℕ → List ExpressionRow
  | [], _, _, _ => []
  | (gene_id, cells) :: rest, resume_reached, resume_gene, resume_sample_index =>
    if gene_id = "" then
      iterRows sample_columns allowed_genes sample_headers rest
        resume_reached resume_gene resume_sample_index
    else if ¬ resume_reached ∧ resume_gene ≠ some gene_id then
      iterRows sample_columns allowed_genes sample_headers rest
        resume_reached resume_gene resume_sample_index
    else if gene_id ∉ allowed_genes then
      iterRows sample_columns allowed_genes sample_headers rest
        true resume_gene resume_sample_index
    else
      emitCells gene_id sample_columns resume_gene resume_sample_index 0
        (sample_headers.zip cells) ++
      (if resume_gene = some gene_id then
        iterRows sample_columns allowed_genes sample_headers rest true none 0
      else
        iterRows sample_columns allowed_genes sample_headers rest
          true resume_gene resume_sample_index)

/-- `iter_filtered_expression` (lines 24–113) after the header validation:
`resume_reached` starts as `resume_gene is None` (line 69). -/
def iter_filtered_expression (sample_columns allowed_genes sample_headers : List String)
    (rows : List (String × List (Option ℚ)))
    (resume_gene : Option String) (resume_sample_index : ℕ) : List ExpressionRow :=
  iterRows sample_columns allowed_genes sample_headers rows
    resume_gene.isNone resume_gene resume_sample_index

/-! ## Metadata processing (`metadata_processing.py`)

A csv `DictReader` row is modelled as an association list of headers to
string values in file order (Python dicts iterate in insertion order and
headers are unique).  `str.casefold` is modelled by ASCII lower-casing
(`pyCasefold`) and `str.strip` by `pyStrip`, as the metadata headers and
values in scope are ASCII. -/

/-- The `UNKNOWN` sentinel (metadata_processing.py line 13). -/
def UNKNOWN_VALUE : String := "UNKNOWN"

/-- ASCII whitespace, the characters `str.strip()` removes from the
metadata values in scope here. -/
def isWs (c : Char) : Bool := c = ' ' ∨ c = '\t' ∨ c = '\n' ∨ c = '\r'

/-- `str.strip()`: drop leading and trailing whitespace. -/
def pyStrip (s : String) : String :=
  ⟨(((s.toList.dropWhile isWs).reverse.dropWhile isWs).reverse)⟩

/-- `str.casefold()` on the ASCII header/value strings: lower-case ASCII
letters. -/
def pyCasefold (s : String) : String :=
  ⟨s.toList.map (fun c =>
    if 'A' ≤ c ∧ c ≤ 'Z' then Char.ofNat (c.toNat + 32) else c)⟩

/-- `re.sub(r"\d+", "", name)`: remove every digit (removing each digit
character equals removing maximal digit runs). -/
def stripDigits (s : String) : String :=
  ⟨s.toList.filter (fun c => ¬ c.isDigit)⟩

/-- `_normalize_header` (lines 45–58): drop digits, strip, casefold. -/
def normalize_header (name : String) : String :=
  pyCasefold (pyStrip (stripDigits name))

/-- `d.get(k)` on a Python dict modelled as an association list. -/
def dictGet {β : Type} (d : List (String × β)) (k : String) : Option β :=
  (d.find? (fun p => p.1 = k)).map Prod.snd

/-- The `casefold_lookup` dict of `_first_non_empty` (lines 66–74):
`setdefault` keeps, per casefolded header, the first non-empty value in row
order; an association list read through first-match `dictGet` has exactly
that semantics, so shadowed later entries need not be dropped. -/
def casefold_lookup : List (String × String) → List (String × String)
  | [] => []
  | (h, v) :: rest =>
    if pyStrip v ≠ "" then (pyCasefold h, v) :: casefold_lookup rest
    else casefold_lookup rest

/-- The bucket `normalized_lookup[k]` of `_first_non_empty` (lines 66–74):
all non-empty values whose digit-normalized header is `k`, in row order —
the list the Python dict accumulates via `setdefault(key, []).append`. -/
def normalized_bucket (row : List (String × String)) (k : String) :
    List String :=
  (row.filter (fun p => pyStrip p.2 ≠ "")).filterMap
    (fun p => if normalize_header p.1 = k then some p.2 else none)

/-- The candidate loop of `_first_non_empty` (lines 76–102): exact header
match (the candidate, then its stripped form), else case-insensitive
lookup, else the first digit-normalized match; a candidate wins when its
stripped value is non-empty, and the stripped value is returned. -/
def firstNonEmptyGo (row : List (String × String)) : List String → String
  | [] => UNKNOWN_VALUE
  | c :: rest =>
    if c = "" then firstNonEmptyGo row rest
    else
      let v1 : Option String :=
        match dictGet row c with
        | some v => some v
        | none => dictGet row (pyStrip c)
      let v2 : Option String :=
        match v1 with
        | some v => some v
        | none => dictGet (casefold_lookup row) (pyCasefold c)
      let v3 : Option String :=
        match v2 with
        | some v => some v
        | none => (normalized_bucket row (normalize_header c)).head?
      match v3 with
      | none => firstNonEmptyGo row rest
      | some v => if pyStrip v ≠ "" then pyStrip v else firstNonEmptyGo row rest

/-- `_first_non_empty` (lines 61–102). -/
def first_non_empty (row : List (String × String)) (candidates : List String) :
    String :=
  if row = [] then UNKNOWN_VALUE else firstNonEmptyGo row candidates

/-- The specification's field-resolution contract (C9), written from the
spec's words: for each candidate in priority order, try an exact header
match (the candidate or its trimmed form), then a case-insensitive match
(first non-empty-valued header), then a match ignoring embedded digits
(first non-empty-valued header); the first candidate producing a non-empty
trimmed value wins, and if no candidate yields one the field is the
sentinel `UNKNOWN`. -/
def specFieldResolution (row : List (String × String)) : List String → String
  | [] => UNKNOWN_VALUE
  | c :: rest =>
    if c = "" then specFieldResolution row rest
    else
      let exact : Option String :=
        match dictGet row c with
        | some v => some v
        | none => dictGet row (pyStrip c)
      let ci : Option String :=
        ((row.filter (fun p => pyStrip p.2 ≠ "")).find?
          (fun p => pyCasefold p.1 = pyCasefold c)).map Prod.snd
      let di : Option String :=
        ((row.filter (fun p => pyStrip p.2 ≠ "")).find?
          (fun p => normalize_header p.1 = normalize_header c)).map Prod.snd
      let v : Option String :=
        match exact with
        | some v => some v
        | none =>
          match ci with
          | some v => some v
          | none => di
      match v with
      | some v => if pyStrip v ≠ "" then pyStrip v else specFieldResolution row rest
      | none => specFieldResolution row rest

/-! ## Repositories (`repositories.py`) -/

/-- `SampleMetadata` (metadata_processing.py lines 16–23). -/
structure SampleMetadata where
  gsm_accession : String
  study_accession : String
  platform_accession : String
  illness_label : String
  age : String
  sex : String
deriving DecidableEq, Repr

/-- The columns of a `DimSample` row that `get_or_create_sample` touches
(models.py lines 52–64). -/
structure DimSample where
  gsm_accession : String
  study_key : ℕ
  platform_key : Option ℕ
  illness_key : Option ℕ
  age : String
  sex : String
deriving DecidableEq, Repr

/-- Python truthiness of an optional integer key: `None` and `0` are
falsy. -/
def truthyKey : Option ℕ → Bool
  | none => false
  | some k => k ≠ 0

/-- The metadata-merge step of `get_or_create_sample` on an existing cached
row (repositories.py lines 171–199).  `platform_key` / `illness_key` are
the results of `get_or_create_platform` / `get_or_create_illness` for the
incoming sample (`none` when its accession/label is empty or `UNKNOWN`). -/
def mergeSampleMetadata (stored : DimSample) (incoming : SampleMetadata)
    (platform_key illness_key : Option ℕ) : DimSample :=
  let s1 := if truthyKey platform_key ∧ stored.platform_key ≠ platform_key
    then { stored with platform_key := platform_key } else stored
  let s2 := if truthyKey illness_key ∧ s1.illness_key ≠ illness_key
    then { s1 with illness_key := illness_key } else s1
  let s3 := if incoming.age ≠ "" ∧ incoming.age ≠ UNKNOWN_VALUE ∧
      (s2.age = "" ∨ s2.age = UNKNOWN_VALUE)
    then { s2 with age := incoming.age } else s2
  if incoming.sex ≠ "" ∧ incoming.sex ≠ UNKNOWN_VALUE ∧
      (s3.sex = "" ∨ s3.sex = UNKNOWN_VALUE)
  then { s3 with sex := incoming.sex } else s3

/-! ### Dimension get-or-create (repositories.py lines 57–115)

A dimension table is the list of its `(surrogate key, natural key)` rows in
insertion order together with the autoincrement counter.  Caches map
natural keys to surrogate keys. -/

/-- A dimension table. -/
structure DimTable where
  rows : List (ℕ × String)
  nextKey : ℕ
deriving DecidableEq, Repr

/-- `SELECT ... WHERE unique_column == value` returning the matching row's
surrogate key (`scalar_one_or_none`). -/
def selectKey (t : DimTable) (v : String) : Option ℕ :=
  (t.rows.find? (fun r => r.2 = v)).map Prod.fst

/-- The sqlite `INSERT ... ON CONFLICT DO NOTHING` (lines 91–98). -/
def insertOnConflictDoNothing (t : DimTable) (v : String) : DimTable :=
  if t.rows.any (fun r => r.2 = v) then t
  else ⟨t.rows ++ [(t.nextKey, v)], t.nextKey + 1⟩

/-- `_get_or_create_unique_dimension` (lines 68–115) on the sqlite dialect:
cache hit, else re-query the table, else conditional insert and re-select
(`scalar_one`, whose failure is the unreachable `none`).  Returns the key
with the updated cache and table. -/
def get_or_create_unique_dimension (cache : List (String × ℕ)) (t : DimTable)
    (v : String) : Option (ℕ × List (String × ℕ) × DimTable) :=
  match dictGet cache v with
  | some k => some (k, cache, t)
  | none =>
    match selectKey t v with
    | some k => some (k, cache ++ [(v, k)], t)
    | none =>
      let t2 := insertOnConflictDoNothing t v
      match selectKey t2 v with
      | some k => some (k, cache ++ [(v, k)], t2)
      | none => none

/-- `get_or_create_study` (lines 57–65): cache hit, else an unconditional
`session.add` + `flush`; the flush violates the unique `gse_accession`
constraint when a row for the accession already exists, raising. -/
def get_or_create_study (cache : List (String × ℕ)) (t : DimTable)
    (v : String) : Except Unit (ℕ × List (String × ℕ) × DimTable) :=
  match dictGet cache v with
  | some k => .ok (k, cache, t)
  | none =>
    if t.rows.any (fun r => r.2 = v) then .error ()
    else .ok (t.nextKey, cache ++ [(v, t.nextKey)],
      ⟨t.rows ++ [(t.nextKey, v)], t.nextKey + 1⟩)

/-- One worker's in-flight state in the concurrent race on
`_get_or_create_unique_dimension`'s database steps (cache-miss path):
the first `SELECT`, the conditional `INSERT`, and the re-`SELECT` are the
atomic database operations. -/
inductive Worker where
  | ready
  | needInsert
  | needReselect
  | done (k : ℕ)
  | failed
deriving DecidableEq, Repr

/-- One atomic database step of a worker resolving natural key `v`. -/
def workerStep (v : String) : Worker → DimTable → Worker × DimTable
  | .ready, t =>
    (match selectKey t v with
      | some k => (.done k, t)
      | none => (.needInsert, t))
  | .needInsert, t => (.needReselect, insertOnConflictDoNothing t v)
  | .needReselect, t =>
    (match selectKey t v with
      | some k => (.done k, t)
      | none => (.failed, t))
  | .done k, t => (.done k, t)
  | .failed, t => (.failed, t)

/-- Run two workers under a schedule: `true` steps the first worker,
`false` the second. -/
def runSched (v : String) :
    List Bool → Worker × Worker × DimTable → Worker × Worker × DimTable
  | [], s => s
  | b :: sched, (w1, w2, t) =>
    if b then
      let (w1', t') := workerStep v w1 t
      runSched v sched (w1', w2, t')
    else
      let (w2', t') := workerStep v w2 t
      runSched v sched (w1, w2', t')

/-! ## Benjamini–Hochberg correction (`correlation.py` lines 68–88)

Floats are embedded in a linear ordered field `α` (`ℚ` for the standalone
function, `ℝ` inside the correlation computation); a float `NaN` is `none`.
Python's stable Timsort is modelled by the stable insertion sort. -/

/-- `d.get(k)` on a Python dict with keys of any decidable type. -/
def assocGet {κ β : Type} [DecidableEq κ] (d : List (κ × β)) (k : κ) :
    Option β :=
  (d.find? (fun p => p.1 = k)).map Prod.snd

section BenjaminiHochberg

variable {α : Type} [LinearOrderedField α]
variable [DecidableRel ((· ≤ ·) : α → α → Prop)]

/-- Key order used by `sorted(range(m), key=lambda idx: p_values[idx])`,
lifted to the `(index, p-value)` pairs; a `NaN` key (`none`) sorts first
(any fixed position works: all properties proved about inputs containing
`NaN` are independent of where the sort puts it). -/
def optKeyLe : Option α → Option α → Prop
  | none, _ => True
  | some _, none => False
  | some a, some b => a ≤ b

instance : DecidableRel (optKeyLe (α := α))
  | none, _ => isTrue trivial
  | some _, none => isFalse id
  | some a, some b => decidable_of_iff (a ≤ b) Iff.rfl

instance : IsTotal (Option α) optKeyLe where
  total a b := by
    cases a <;> cases b <;> simp [optKeyLe]
    exact le_total _ _

instance : IsTrans (Option α) optKeyLe where
  trans a b c hab hbc := by
    cases a <;> cases b <;> cases c <;> simp_all [optKeyLe]
    exact le_trans hab hbc

/-- The key order on the enumerated pairs. -/
def bhPairLe (a b : ℕ × Option α) : Prop := optKeyLe a.2 b.2

instance : DecidableRel (bhPairLe (α := α)) :=
  fun a b => (inferInstance : Decidable (optKeyLe a.2 b.2))

instance : IsTotal (ℕ × Option α) bhPairLe :=
  ⟨fun a b => IsTotal.total (r := optKeyLe) a.2 b.2⟩

instance : IsTrans (ℕ × Option α) bhPairLe :=
  ⟨fun a b c hab hbc => IsTrans.trans (r := optKeyLe) a.2 b.2 c.2 hab hbc⟩

/-- `sorted_indices` (line 73), as the stable sort of the enumerated
p-values by p-value. -/
def bhSorted (ps : List (Option α)) : List (ℕ × Option α) :=
  List.insertionSort bhPairLe ps.enum

/-- The walk of lines 74–85: iterate over `reversed(sorted_indices)` with
`rank` starting at 1 and the running `prev` starting at 1.0, skipping `NaN`
entries; the returned association list records each index's adjusted
q-value in processing order. -/
def bhWalk (m : ℕ) : α → ℕ → List (ℕ × Option α) → List (ℕ × Option α)
  | _, _, [] => []
  | prev, rank, (idx, none) :: rest =>
    (idx, none) :: bhWalk m prev (rank + 1) rest
  | prev, rank, (idx, some p) :: rest =>
    let raw := p * (m : α) / ((m - rank + 1 : ℕ) : α)
    let value := min prev raw
    (idx, some (min value 1)) :: bhWalk m value (rank + 1) rest

/-- `_benjamini_hochberg` (correlation.py lines 68–88). -/
def benjamini_hochberg (ps : List (Option α)) : List (Option α) :=
  if ps = [] then []
  else
    let m := ps.length
    let asg := bhWalk m 1 1 (bhSorted ps).reverse
    (List.range m).map (fun i => (assocGet asg i).getD none)

end BenjaminiHochberg

/-! ## Correlation computation (`correlation.py` lines 16–160)

The fallback `spearmanr` takes square roots, so this part of the embedding
lives in `ℝ` (noncomputable); `NormalDist().cdf` is an opaque
transcendental modelled as a parameter `cdf`, and a float `NaN` is `none`.
`dt.datetime.now(...)` is modelled by the `computed_at` parameter.
Python dicts become association lists in insertion order. -/

/-- `MIN_SAMPLES_FOR_CORRELATION` (line 65). -/
def MIN_SAMPLES_FOR_CORRELATION : ℕ := 3

/-- The sort key of `sorted(enumerate(values), key=lambda item: item[1])`
(line 17). -/
def rankPairLe (a b : ℕ × ℝ) : Prop := a.2 ≤ b.2

noncomputable instance : DecidableRel rankPairLe :=
  fun a b => (inferInstance : Decidable (a.2 ≤ b.2))

/-- The tie-averaging walk of `_rankdata` (lines 19–29): each group of
consecutive equal sorted values receives the mean of its one-based
positions; `pos` is the zero-based position of the group head. -/
noncomputable def assignAvgRanks : ℕ → List (ℕ × ℝ) → List (ℕ × ℝ)
  | _, [] => []
  | pos, (i, v) :: rest =>
    let grp := rest.takeWhile (fun p => p.2 = v)
    let len := grp.length + 1
    let total : ℝ :=
      ((List.range len).map (fun t => ((pos + t + 1 : ℕ) : ℝ))).sum
    let avg := total / (len : ℝ)
    ((i, avg) :: grp.map (fun p => (p.1, avg))) ++
      assignAvgRanks (pos + len) (rest.drop grp.length)
termination_by _ l => l.length
decreasing_by
  simp only [List.length_cons, List.length_drop]
  omega

/-- `_rankdata` (lines 16–30); `ranks` starts as `[0.0] * len(values)` and
every original index is assigned exactly once. -/
noncomputable def rankdata (values : List ℝ) : List ℝ :=
  let indexed := List.insertionSort rankPairLe values.enum
  let assigned := assignAvgRanks 0 indexed
  (List.range values.length).map (fun i => (assocGet assigned i).getD 0)

/-- `_pearson` (lines 32–44); the `n == 0` and zero-denominator NaN results
are `none`, `math.sqrt` is `Real.sqrt`. -/
noncomputable def pearson (x y : List ℝ) : Option ℝ :=
  let n := x.length
  if n = 0 then none
  else
    let mean_x := x.sum / (n : ℝ)
    let mean_y := y.sum / (n : ℝ)
    let num := ((x.zip y).map (fun p => (p.1 - mean_x) * (p.2 - mean_y))).sum
    let denom_x := Real.sqrt ((x.map (fun a => (a - mean_x) ^ 2)).sum)
    let denom_y := Real.sqrt ((y.map (fun b => (b - mean_y) ^ 2)).sum)
    let denom := denom_x * denom_y
    if denom = 0 then none else some (num / denom)

/-- The fallback `spearmanr` (lines 46–61): rank both series, take the
Pearson correlation of the ranks, and derive the p-value (`NaN` is `none`;
`dist.cdf` is the parameter `cdf`). -/
noncomputable def spearmanr (cdf : ℝ → ℝ) (values_a values_b : List ℝ) :
    Option ℝ × Option ℝ :=
  let ranks_a := rankdata values_a
  let ranks_b := rankdata values_b
  match pearson ranks_a ranks_b with
  | none => (none, none)
  | some rho =>
    let n := values_a.length
    if n < 3 then (some rho, none)
    else if 1 ≤ |rho| then (some (max (min rho 1) (-1)), some 0)
    else
      let t_stat := rho * Real.sqrt (((n : ℝ) - 2) / (1 - rho ^ 2))
      let p := 2 * (1 - cdf |t_stat|)
      (some rho, some (min (max p 0) 1))

/-- `FactGenePairCorrelation` (models.py lines 89–121), the columns the
computation fills. -/
structure FactGenePairCorrelation where
  gene_a_key : ℕ
  gene_b_key : ℕ
  illness_key : ℕ
  rho_spearman : ℝ
  p_value : ℝ
  q_value : Option ℝ
  n_samples : ℕ
  computed_at : String
  study_key : ℕ

/-- A `pair_stats` entry (correlation.py line 114). -/
structure PairStat where
  gene_a_key : ℕ
  gene_b_key : ℕ
  n_samples : ℕ
  rho : ℝ
  p_value : ℝ

/-- `itertools.combinations(l, 2)` in its emission order. -/
def pairsOf {β : Type} : List β → List (β × β)
  | [] => []
  | x :: xs => xs.map (fun y => (x, y)) ++ pairsOf xs

/-- Python dict key iteration order: first occurrences, in order (the
`illness_samples` defaultdict of lines 100–104). -/
def dedupFirst : List ℕ → List ℕ
  | [] => []
  | x :: xs => x :: dedupFirst (xs.filter (fun y => y ≠ x))
termination_by l => l.length
decreasing_by
  simp only [List.length_cons]
  have := List.length_filter_le (fun y => decide (y ≠ x)) xs
  omega

/-- The samples grouped under illness key `k` (lines 100–104), in
insertion order. -/
def cohortSamples (sample_illness_map : List (String × Option ℕ)) (k : ℕ) :
    List String :=
  sample_illness_map.filterMap (fun p => if p.2 = some k then some p.1 else none)

/-- `shared_samples` for a gene pair (line 119). -/
noncomputable def sharedSamples
    (gene_expression_by_sample : List (ℕ × List (String × ℝ)))
    (samples : List String) (a b : ℕ) : List String :=
  samples.filter (fun s =>
    (assocGet ((assocGet gene_expression_by_sample a).getD []) s).isSome &&
    (assocGet ((assocGet gene_expression_by_sample b).getD []) s).isSome)

/-- `values_a` / `values_b` (lines 123–124). -/
noncomputable def seriesFor
    (gene_expression_by_sample : List (ℕ × List (String × ℝ)))
    (shared : List String) (g : ℕ) : List ℝ :=
  shared.map (fun s =>
    (assocGet ((assocGet gene_expression_by_sample g).getD []) s).getD 0)

/-- The body of the inner pair loop (lines 116–135): `None` when the pair
is skipped (`continue`), otherwise the `pair_stats` entry. -/
noncomputable def pairStatFor (cdf : ℝ → ℝ)
    (gene_expression_by_sample : List (ℕ × List (String × ℝ)))
    (samples : List String) (min_samples : ℕ) (g : ℕ × ℕ) :
    Option PairStat :=
  let shared := sharedSamples gene_expression_by_sample samples g.1 g.2
  if shared.length < min_samples then none
  else
    let values_a := seriesFor gene_expression_by_sample shared g.1
    let values_b := seriesFor gene_expression_by_sample shared g.2
    if values_a.dedup.length < 2 ∨ values_b.dedup.length < 2 then none
    else
      match spearmanr cdf values_a values_b with
      | (some rho, some p_value) =>
        some ⟨g.1, g.2, shared.length, rho, p_value⟩
      | _ => none

/-- The body of the cohort loop (lines 109–158): the records this cohort
contributes (empty lists model `continue`). -/
noncomputable def cohortRecords (cdf : ℝ → ℝ)
    (gene_expression_by_sample : List (ℕ × List (String × ℝ)))
    (sample_illness_map : List (String × Option ℕ))
    (study_key : ℕ) (computed_at : String) (min_samples : ℕ)
    (illness_key : ℕ) : List FactGenePairCorrelation :=
  let samples := cohortSamples sample_illness_map illness_key
  if samples.length < min_samples then []
  else
    let gene_keys := List.insertionSort (· ≤ ·)
      (gene_expression_by_sample.map Prod.fst)
    let pair_stats := (pairsOf gene_keys).filterMap
      (pairStatFor cdf gene_expression_by_sample samples min_samples)
    if pair_stats.isEmpty then []
    else
      let q_values := benjamini_hochberg
        (pair_stats.map (fun e => some e.p_value))
      (pair_stats.zip q_values).map (fun e =>
        ⟨e.1.gene_a_key, e.1.gene_b_key, illness_key, e.1.rho, e.1.p_value,
          e.2, e.1.n_samples, computed_at, study_key⟩)

/-- `compute_gene_pair_correlations` (lines 91–160). -/
noncomputable def compute_gene_pair_correlations (cdf : ℝ → ℝ)
    (gene_expression_by_sample : List (ℕ × List (String × ℝ)))
    (sample_illness_map : List (String × Option ℕ))
    (study_key : ℕ) (computed_at : String) (min_samples : ℕ) :
    List FactGenePairCorrelation :=
  let cohorts := dedupFirst (sample_illness_map.filterMap Prod.snd)
  cohorts.flatMap (cohortRecords cdf gene_expression_by_sample
    sample_illness_map study_key computed_at min_samples)

/-- Worked-example fixture: two genes with the identical series
`S1 ↦ 1, S2 ↦ 2, S3 ↦ 3`. -/
noncomputable def exampleGeneExpression : List (ℕ × List (String × ℝ)) :=
  [(1, [("S1", 1), ("S2", 2), ("S3", 3)]),
   (2, [("S1", 1), ("S2", 2), ("S3", 3)])]

/-- Worked-example fixture: all three samples in illness cohort `10`. -/
def exampleIllnessMap : List (String × Option ℕ) :=
  [("S1", some 10), ("S2", some 10), ("S3", some 10)]

/-! ## Batch loader (`src/etl/loader.py`)

Database failures are modelled by an error kind; `tenacity.retry` with
`stop_after_attempt` and its default retry predicate (which retries on any
`Exception`) is modelled by `tenacityRetry`; a `RetryError` escaping the
retries is caught and re-raised as `RuntimeError` (lines 45–48, 85–88). -/

inductive DbError where
  | transient
  | constraintViolation
  | malformedData
deriving DecidableEq, Repr

/-- Outcome of a loader call: success value with the number of attempts
executed, or the terminal `RuntimeError` after exhausting attempts. -/
inductive LoaderOutcome (β : Type) where
  | ok (attempts : ℕ) (value : β)
  | runtimeError (attempts : ℕ)
deriving DecidableEq, Repr

/-- `tenacity` retry loop: `attempt` is the 1-based attempt number, `left`
the remaining allowed attempts.  The default retry predicate retries on
EVERY exception kind. -/
def tenacityGo {β : Type} (action : ℕ → Except DbError β) :
    ℕ → ℕ → LoaderOutcome β
  | attempt, 0 => .runtimeError (attempt - 1)
  | attempt, left + 1 =>
    match action attempt with
    | .ok b => .ok attempt b
    | .error _ =>
      if left = 0 then .runtimeError attempt
      else tenacityGo action (attempt + 1) left

/-- `@retry(stop=stop_after_attempt(n), wait=wait_exponential(...))` around
a fallible action, with the `RetryError → RuntimeError` wrapper. -/
def tenacityRetry {β : Type} (n : ℕ) (action : ℕ → Except DbError β) :
    LoaderOutcome β :=
  tenacityGo action 1 n

/-- `wait_exponential(multiplier=1, min=1, max=8)`: the wait before the
retry following attempt `k` is `clamp(2^(k-1), 1, 8)` seconds. -/
def backoffWait (k : ℕ) : ℕ := max 1 (min 8 (2 ^ (k - 1)))

/-- The single transaction of `upsert_study_metadata._execute` (lines
38–43): delete the study's dimension row, then insert the new payload —
one atomic `engine.begin()` block. -/
def upsert_study_metadata_txn (table : List (String × String))
    (study_id payload : String) : List (String × String) :=
  (table.filter (fun r => r.1 ≠ study_id)) ++ [(study_id, payload)]

/-- `BatchLoader.upsert_study_metadata` (lines 31–48): each attempt runs
the delete+insert transaction; a failing attempt rolls back (table
unchanged) and is retried; exhaustion raises `RuntimeError`.
`attemptFails k` gives the error injected into attempt `k` (`none` =
attempt commits). -/
def upsert_study_metadata (n : ℕ) (attemptFails : ℕ → Option DbError)
    (table : List (String × String)) (study_id payload : String) :
    LoaderOutcome (List (String × String)) :=
  tenacityRetry n (fun k =>
    match attemptFails k with
    | some e => .error e
    | none => .ok (upsert_study_metadata_txn table study_id payload))

/-- A row of the `fact_expression` table as `insert_expression_batch`
builds it (loader.py lines 72–80). -/
structure FactExpressionInsert where
  run_id : String
  study_id : String
  ensembl_id : String
  expression_value : ℚ
  batch_id : ℕ
deriving DecidableEq, Repr

/-- The single transaction of `insert_expression_batch._execute` (lines
69–81): one `engine.begin()` block inserting every row of the batch,
returning the new table and the row count (`result.rowcount or
len(rows)`). -/
def insert_expression_batch_txn (facts : List FactExpressionInsert)
    (run_id study_id : String) (batch_id : ℕ)
    (rows : List (String × ℚ)) : List FactExpressionInsert × ℕ :=
  (facts ++ rows.map (fun row =>
    ⟨run_id, study_id, row.1, row.2, batch_id⟩), rows.length)

/-- `BatchLoader.insert_expression_batch` (lines 50–88): an empty batch
returns 0 without touching the database or the retry machinery (lines
57–58); otherwise each attempt runs the batch insert as one
transaction, a failing attempt rolls back and is retried, and
exhaustion raises `RuntimeError`. -/
def insert_expression_batch (n : ℕ) (attemptFails : ℕ → Option DbError)
    (facts : List FactExpressionInsert) (run_id study_id : String)
    (batch_id : ℕ) (rows : List (String × ℚ)) :
    LoaderOutcome (List FactExpressionInsert × ℕ) :=
  if rows.isEmpty then .ok 0 (facts, 0)
  else tenacityRetry n (fun k =>
    match attemptFails k with
    | some e => .error e
    | none =>
      .ok (insert_expression_batch_txn facts run_id study_id batch_id rows))

/-! ## Expression fact loading (`pipeline.py` lines 211–258)

`get_or_create_gene` returns one key per gene id within a run (the
dimension cache memoises it), modelled by the function `geneKey`; the
sample key map is `sampleKey`.  Batch flushes only group the inserts, so
the run's inserted facts are the concatenation of its batches. -/

/-- A `FactExpression` row (models.py lines 72–82). -/
structure FactExpressionRec where
  sample_key : ℕ
  gene_key : ℕ
  study_key : ℕ
  expression_value : ℚ
deriving DecidableEq, Repr

/-- The fact-accumulation of `_process_expression`'s stream loop (pipeline
lines 235–260): a row is appended only when its `(sample_key, gene_key)`
is not in the preloaded `existing_facts` set. -/
def appendedFacts (sampleKey geneKey : String → ℕ) (study_key : ℕ)
    (existing : List (ℕ × ℕ)) (stream : List ExpressionRow) :
    List FactExpressionRec :=
  stream.filterMap (fun row =>
    let gene_key := geneKey row.gene_id
    let sample_key := sampleKey row.sample_accession
    if (sample_key, gene_key) ∈ existing then none
    else some ⟨sample_key, gene_key, study_key, row.expression_value⟩)

end EtlForAllStudies

namespace EtlForAllStudies

/-! ### Lemmas about the expression stream -/

/-- Inside the resume gene's row, the resume column filter keeps exactly the
cells whose index is at least `resume_sample_index`. -/
theorem emitCells_resume_eq_filter (g : String) (cols : List String) (i : ℕ) :
    ∀ (k : ℕ) (l : List (String × Option ℚ)),
      emitCells g cols (some g) i k l =
        (emitCells g cols none 0 k l).filter (fun r => i ≤ r.sample_index)
  | _, [] => by simp [emitCells]
  | k, (name, v) :: rest => by
    have ih := emitCells_resume_eq_filter g cols i (k + 1) rest
    by_cases hc : name ∈ cols
    · by_cases hk : k < i
      · cases v <;>
          simp [emitCells, hc, hk, ih, Nat.not_le.mpr hk]
      · cases v <;>
          simp [emitCells, hc, hk, ih, Nat.le_of_not_lt hk]
    · cases v <;> simp [emitCells, hc, ih]

/-- Every emitted cell carries the row's gene id. -/
theorem emitCells_gene (g : String) (cols : List String) (rg : Option String)
    (ri : ℕ) :
    ∀ (k : ℕ) (l : List (String × Option ℚ)),
      ∀ x ∈ emitCells g cols rg ri k l, x.gene_id = g
  | _, [], x, hx => by simp [emitCells] at hx
  | k, (name, v) :: rest, x, hx => by
    have ih := emitCells_gene g cols rg ri (k + 1) rest
    by_cases hc : name ∈ cols
    · by_cases hr : rg = some g ∧ k < ri
      · obtain ⟨hr1, hr2⟩ := hr
        subst hr1
        simp only [emitCells, hc, hr2] at hx
        simp at hx
        exact emitCells_gene g cols (some g) ri (k + 1) rest x hx
      · cases v with
        | none =>
          simp only [emitCells, hc, hr] at hx
          simp at hx
          exact ih x hx
        | some q =>
          simp only [emitCells, hc, hr] at hx
          simp at hx
          rcases hx with hx | hx
          · simp [hx]
          · exact ih x hx
    · simp only [emitCells, hc] at hx
      simp at hx
      exact ih x hx

/-- Emitted cell indices are bounded below by the running counter. -/
theorem emitCells_index_ge (g : String) (cols : List String) (rg : Option String)
    (ri : ℕ) :
    ∀ (k : ℕ) (l : List (String × Option ℚ)),
      ∀ x ∈ emitCells g cols rg ri k l, k ≤ x.sample_index
  | _, [], x, hx => by simp [emitCells] at hx
  | k, (name, v) :: rest, x, hx => by
    have ih := emitCells_index_ge g cols rg ri (k + 1) rest
    by_cases hc : name ∈ cols
    · by_cases hr : rg = some g ∧ k < ri
      · obtain ⟨hr1, hr2⟩ := hr
        subst hr1
        simp only [emitCells, hc, hr2] at hx
        simp at hx
        exact Nat.le_of_succ_le
          (emitCells_index_ge g cols (some g) ri (k + 1) rest x hx)
      · cases v with
        | none =>
          simp only [emitCells, hc, hr] at hx
          simp at hx
          exact Nat.le_of_succ_le (ih x hx)
        | some q =>
          simp only [emitCells, hc, hr] at hx
          simp at hx
          rcases hx with hx | hx
          · simp [hx]
          · exact Nat.le_of_succ_le (ih x hx)
    · simp only [emitCells, hc] at hx
      simp at hx
      exact Nat.le_of_succ_le (ih x hx)

/-- Emitted cell indices are strictly increasing along the row. -/
theorem emitCells_pairwise (g : String) (cols : List String) (rg : Option String)
    (ri : ℕ) :
    ∀ (k : ℕ) (l : List (String × Option ℚ)),
      (emitCells g cols rg ri k l).Pairwise
        (fun a b => a.sample_index < b.sample_index)
  | _, [] => by simp [emitCells]
  | k, (name, v) :: rest => by
    have ih := emitCells_pairwise g cols rg ri (k + 1) rest
    have hge := emitCells_index_ge g cols rg ri (k + 1) rest
    by_cases hc : name ∈ cols
    · by_cases hr : rg = some g ∧ k < ri
      · obtain ⟨hr1, hr2⟩ := hr
        subst hr1
        simpa [emitCells, hc, hr2] using
          emitCells_pairwise g cols (some g) ri (k + 1) rest
      · cases v with
        | none => simpa [emitCells, hc, hr] using ih
        | some q =>
          have hcons : emitCells g cols rg ri k ((name, some q) :: rest) =
              ⟨g, name, q, k⟩ :: emitCells g cols rg ri (k + 1) rest := by
            simp [emitCells, hc, hr]
          rw [hcons]
          exact List.pairwise_cons.mpr
            ⟨fun x hx => Nat.lt_of_succ_le (hge x hx), ih⟩
    · simpa [emitCells, hc] using ih

/-- One step of the full (no-resume) pass: the state stays `(true, none, 0)`. -/
theorem iterRows_full_cons (cols allowed hdrs : List String)
    (g : String) (cells : List (Option ℚ))
    (rest : List (String × List (Option ℚ))) :
    iterRows cols allowed hdrs ((g, cells) :: rest) true none 0 =
      (if g ≠ "" ∧ g ∈ allowed then emitCells g cols none 0 0 (hdrs.zip cells)
        else []) ++
      iterRows cols allowed hdrs rest true none 0 := by
  by_cases h1 : g = ""
  · simp [iterRows, h1]
  · by_cases h2 : g ∈ allowed
    · simp [iterRows, h1, h2]
    · simp [iterRows, h1, h2]

/-- The full pass processes a concatenation of row blocks independently. -/
theorem iterRows_full_append (cols allowed hdrs : List String)
    (A B : List (String × List (Option ℚ))) :
    iterRows cols allowed hdrs (A ++ B) true none 0 =
      iterRows cols allowed hdrs A true none 0 ++
        iterRows cols allowed hdrs B true none 0 := by
  induction A with
  | nil => simp [iterRows]
  | cons p A ih =>
    obtain ⟨g, cells⟩ := p
    rw [List.cons_append, iterRows_full_cons, iterRows_full_cons, ih,
      List.append_assoc]

/-- Until the resume gene is seen, every row is skipped and the state is
unchanged. -/
theorem iterRows_resume_skip (cols allowed hdrs : List String) (g : String)
    (i : ℕ) :
    ∀ (A rest : List (String × List (Option ℚ))), (∀ p ∈ A, p.1 ≠ g) →
      iterRows cols allowed hdrs (A ++ rest) false (some g) i =
        iterRows cols allowed hdrs rest false (some g) i
  | [], _, _ => rfl
  | (g', cells') :: A, rest, h => by
    have hne : g' ≠ g := h (g', cells') (by simp)
    have ih := iterRows_resume_skip cols allowed hdrs g i A rest
      fun p hp => h p (List.mem_cons_of_mem _ hp)
    by_cases h1 : g' = ""
    · simpa [iterRows, h1] using ih
    · simpa [iterRows, h1, Ne.symm hne] using ih

/-- Processing the resume gene's row: emit its filtered cells, then clear the
resume state. -/
theorem iterRows_resume_hit (cols allowed hdrs : List String) (g : String)
    (cells : List (Option ℚ)) (B : List (String × List (Option ℚ))) (i : ℕ)
    (hg : g ≠ "") (ha : g ∈ allowed) :
    iterRows cols allowed hdrs ((g, cells) :: B) false (some g) i =
      emitCells g cols (some g) i 0 (hdrs.zip cells) ++
        iterRows cols allowed hdrs B true none 0 := by
  simp [iterRows, hg, ha]

/-- Every streamed row's gene id comes from a nonempty, allowed gene row of
the file. -/
theorem iterRows_mem_gene (cols allowed hdrs : List String) :
    ∀ (rows : List (String × List (Option ℚ))) (b : Bool) (rg : Option String)
      (ri : ℕ) (x : ExpressionRow), x ∈ iterRows cols allowed hdrs rows b rg ri →
      ∃ p ∈ rows, x.gene_id = p.1 ∧ p.1 ≠ "" ∧ p.1 ∈ allowed
  | [], b, rg, ri, x, hx => by simp [iterRows] at hx
  | (g, cells) :: rest, b, rg, ri, x, hx => by
    simp only [iterRows] at hx
    by_cases h1 : g = ""
    · rw [if_pos h1] at hx
      obtain ⟨p, hp, hx'⟩ := iterRows_mem_gene cols allowed hdrs rest b rg ri x hx
      exact ⟨p, List.mem_cons_of_mem _ hp, hx'⟩
    · rw [if_neg h1] at hx
      by_cases h2 : ¬ b = true ∧ rg ≠ some g
      · rw [if_pos h2] at hx
        obtain ⟨p, hp, hx'⟩ :=
          iterRows_mem_gene cols allowed hdrs rest b rg ri x hx
        exact ⟨p, List.mem_cons_of_mem _ hp, hx'⟩
      · rw [if_neg h2] at hx
        by_cases h3 : g ∉ allowed
        · rw [if_pos h3] at hx
          obtain ⟨p, hp, hx'⟩ :=
            iterRows_mem_gene cols allowed hdrs rest true rg ri x hx
          exact ⟨p, List.mem_cons_of_mem _ hp, hx'⟩
        · rw [if_neg h3] at hx
          have hga : g ∈ allowed := not_not.mp h3
          rcases List.mem_append.mp hx with hx | hx
          · exact ⟨(g, cells), by simp,
              emitCells_gene g cols rg ri 0 _ x hx, h1, hga⟩
          · by_cases h4 : rg = some g
            · rw [if_pos h4] at hx
              obtain ⟨p, hp, hx'⟩ :=
                iterRows_mem_gene cols allowed hdrs rest true none 0 x hx
              exact ⟨p, List.mem_cons_of_mem _ hp, hx'⟩
            · rw [if_neg h4] at hx
              obtain ⟨p, hp, hx'⟩ :=
                iterRows_mem_gene cols allowed hdrs rest true rg ri x hx
              exact ⟨p, List.mem_cons_of_mem _ hp, hx'⟩

/-- Filtering a strictly `sample_index`-increasing list at threshold `i`
keeps exactly the suffix starting at the element with index `i`. -/
theorem filter_ge_of_pairwise_split (i : ℕ) (L1 L2 : List ExpressionRow)
    (r : ExpressionRow)
    (hp : (L1 ++ r :: L2).Pairwise (fun a b => a.sample_index < b.sample_index))
    (hr : r.sample_index = i) :
    (L1 ++ r :: L2).filter (fun x => i ≤ x.sample_index) = r :: L2 := by
  rw [List.filter_append]
  have hsplit := List.pairwise_append.mp hp
  have h1 : ∀ x ∈ L1, x.sample_index < i := by
    intro x hx
    have := hsplit.2.2 x hx r (by simp)
    omega
  have hL1 : L1.filter (fun x => decide (i ≤ x.sample_index)) = [] := by
    refine List.filter_eq_nil_iff.mpr fun x hx => by
      simpa using Nat.not_le.mpr (h1 x hx)
  have hL2 : ∀ y ∈ L2, i ≤ y.sample_index := by
    intro y hy
    have := List.rel_of_pairwise_cons hsplit.2.1 hy
    omega
  have hcons : (r :: L2).filter (fun x => decide (i ≤ x.sample_index)) =
      r :: L2 := by
    refine List.filter_eq_self.mpr fun x hx => ?_
    rcases List.mem_cons.mp hx with hx | hx
    · simp [hx, hr]
    · simpa using hL2 x hx
  rw [hL1, hcons]
  rfl

/-- Split a list at the first element satisfying a predicate. -/
theorem exists_first_split {α : Type} (p : α → Prop) [DecidablePred p] :
    ∀ (l : List α), (∃ a ∈ l, p a) →
      ∃ l1 a l2, l = l1 ++ a :: l2 ∧ p a ∧ ∀ x ∈ l1, ¬ p x
  | [], h => by simp at h
  | a :: l, h => by
    by_cases hpa : p a
    · exact ⟨[], a, l, rfl, hpa, by simp⟩
    · have hl : ∃ b ∈ l, p b := by
        rcases h with ⟨b, hb, hpb⟩
        rcases List.mem_cons.mp hb with rfl | hb
        · exact absurd hpb hpa
        · exact ⟨b, hb, hpb⟩
      obtain ⟨l1, b, l2, heq, hpb, hl1⟩ := exists_first_split p l hl
      refine ⟨a :: l1, b, l2, by rw [heq]; rfl, hpb, fun x hx => ?_⟩
      rcases List.mem_cons.mp hx with rfl | hx
      · exact hpa
      · exact hl1 x hx

/-- C1 (amended): for a well-formed expression file (distinct nonempty gene
ids) and a position `(g, i)` that was emitted during a full pass, the
resumed stream equals the suffix of the full pass starting AT the row for
gene `g` and sample index `i`, inclusive: no row strictly before the
recorded position is re-emitted, the recorded row itself IS re-emitted, and
no later row is omitted. -/
theorem iter_filtered_expression_resume_inclusive_suffix
    (cols allowed hdrs : List String)
    (rows : List (String × List (Option ℚ))) (g : String) (i : ℕ)
    (hnd : ((rows.map Prod.fst).filter (fun s => s ≠ "")).Nodup)
    (hfull : ∃ r ∈ iter_filtered_expression cols allowed hdrs rows none 0,
        r.gene_id = g ∧ r.sample_index = i) :
    ∃ P r Q,
      iter_filtered_expression cols allowed hdrs rows none 0 = P ++ r :: Q ∧
      r.gene_id = g ∧ r.sample_index = i ∧
      (∀ x ∈ P, ¬(x.gene_id = g ∧ x.sample_index = i)) ∧
      iter_filtered_expression cols allowed hdrs rows (some g) i = r :: Q := by
  obtain ⟨r0, hr0, hr0g, hr0i⟩ := hfull
  have hunf : iter_filtered_expression cols allowed hdrs rows none 0 =
      iterRows cols allowed hdrs rows true none 0 := rfl
  rw [hunf] at hr0
  obtain ⟨p0, hp0, hp0g, hp0ne, hp0al⟩ :=
    iterRows_mem_gene cols allowed hdrs rows true none 0 r0 hr0
  have hgp0 : p0.1 = g := by rw [← hp0g, hr0g]
  have hgne : g ≠ "" := hgp0 ▸ hp0ne
  have hgal : g ∈ allowed := hgp0 ▸ hp0al
  obtain ⟨A, pg, B, hrows, hpg, hA⟩ :=
    exists_first_split (fun p => p.1 = g) rows ⟨p0, hp0, hgp0⟩
  obtain ⟨g', cells⟩ := pg
  have hgg' : g = g' := Eq.symm hpg
  subst hgg'
  subst hrows
  have hBg : ∀ p ∈ B, p.1 ≠ "" → p.1 ≠ g := by
    have hnd2 : ((A.map Prod.fst).filter (fun s => s ≠ "") ++
        g :: (B.map Prod.fst).filter (fun s => s ≠ "")).Nodup := by
      simpa [List.filter_append, hgne] using hnd
    have hgnotB := (List.nodup_cons.mp (List.nodup_append.mp hnd2).2.1).1
    intro p hp hne heq
    exact hgnotB (heq ▸ List.mem_filter.mpr
      ⟨List.mem_map.mpr ⟨p, hp, rfl⟩, by simpa using hne⟩)
  have hfullEq : iterRows cols allowed hdrs (A ++ (g, cells) :: B) true none 0 =
      iterRows cols allowed hdrs A true none 0 ++
        (emitCells g cols none 0 0 (hdrs.zip cells) ++
          iterRows cols allowed hdrs B true none 0) := by
    rw [iterRows_full_append, iterRows_full_cons]
    simp [hgne, hgal]
  have hr0U : r0 ∈ emitCells g cols none 0 0 (hdrs.zip cells) := by
    rw [hfullEq] at hr0
    rcases List.mem_append.mp hr0 with hx | hx
    · obtain ⟨p, hp, hpgene, _, _⟩ :=
        iterRows_mem_gene cols allowed hdrs A true none 0 r0 hx
      exact absurd (by rw [← hpgene, hr0g]) (hA p hp)
    · rcases List.mem_append.mp hx with hx | hx
      · exact hx
      · obtain ⟨p, hp, hpgene, hpne, _⟩ :=
          iterRows_mem_gene cols allowed hdrs B true none 0 r0 hx
        exact absurd (by rw [← hpgene, hr0g]) (hBg p hp hpne)
  obtain ⟨U1, U2, hU⟩ := List.append_of_mem hr0U
  have hpw := emitCells_pairwise g cols none 0 0 (hdrs.zip cells)
  rw [hU] at hpw
  have hfilter := filter_ge_of_pairwise_split i U1 U2 r0 hpw hr0i
  have hres : iterRows cols allowed hdrs (A ++ (g, cells) :: B) false (some g) i =
      (r0 :: U2) ++ iterRows cols allowed hdrs B true none 0 := by
    rw [iterRows_resume_skip cols allowed hdrs g i A _ hA,
      iterRows_resume_hit cols allowed hdrs g cells B i hgne hgal,
      emitCells_resume_eq_filter, hU, hfilter]
  refine ⟨iterRows cols allowed hdrs A true none 0 ++ U1, r0,
    U2 ++ iterRows cols allowed hdrs B true none 0, ?_, hr0g, hr0i, ?_, ?_⟩
  · rw [hunf, hfullEq, hU]
    simp
  · intro x hx
    rcases List.mem_append.mp hx with hx | hx
    · obtain ⟨p, hp, hpgene, _, _⟩ :=
        iterRows_mem_gene cols allowed hdrs A true none 0 x hx
      rintro ⟨hxg, -⟩
      exact hA p hp (by rw [← hpgene, hxg])
    · have hxlt : x.sample_index < r0.sample_index :=
        (List.pairwise_append.mp hpw).2.2 x hx r0 (by simp)
      rintro ⟨-, hxi⟩
      omega
  · have : iter_filtered_expression cols allowed hdrs (A ++ (g, cells) :: B)
        (some g) i = iterRows cols allowed hdrs (A ++ (g, cells) :: B)
        false (some g) i := rfl
    rw [this, hres]
    simp

/-- C1 counterexample: with a single allowed gene row and the recorded
position `("G1", 0)`, the resumed stream re-emits the row at the recorded
position itself, so it is not the strict suffix (which would be empty). -/
theorem iter_filtered_expression_resume_reemits_recorded_row :
    iter_filtered_expression ["S1"] ["G1"] ["S1"] [("G1", [some 1])]
        (some "G1") 0 = [⟨"G1", "S1", 1, 0⟩] ∧
    iter_filtered_expression ["S1"] ["G1"] ["S1"] [("G1", [some 1])]
        none 0 = [⟨"G1", "S1", 1, 0⟩] := by decide

/-- Witness for the amended C1 theorem at a concrete two-gene file, resumed
at position `("G1", 1)`. -/
theorem iter_filtered_expression_resume_inclusive_suffix_witness :
    ∃ P r Q,
      iter_filtered_expression ["S1", "S2"] ["G1", "G2"] ["S1", "S2"]
        [("G1", [some 1, some 2]), ("G2", [some 3, some 4])] none 0 =
        P ++ r :: Q ∧
      r.gene_id = "G1" ∧ r.sample_index = 1 ∧
      (∀ x ∈ P, ¬(x.gene_id = "G1" ∧ x.sample_index = 1)) ∧
      iter_filtered_expression ["S1", "S2"] ["G1", "G2"] ["S1", "S2"]
        [("G1", [some 1, some 2]), ("G2", [some 3, some 4])]
        (some "G1") 1 = r :: Q :=
  iter_filtered_expression_resume_inclusive_suffix _ _ _ _ "G1" 1 (by decide)
    ⟨⟨"G1", "S2", 2, 1⟩, by decide, rfl, rfl⟩

/-! ### Lemmas about metadata field resolution -/

/-- The `casefold_lookup` dict returns, for key `k`, the value of the first
header in row order whose casefolded name is `k` and whose value is
non-empty. -/
theorem dictGet_casefold_lookup (k : String) :
    ∀ (row : List (String × String)),
      dictGet (casefold_lookup row) k =
        ((row.filter (fun p => pyStrip p.2 ≠ "")).find?
          (fun p => pyCasefold p.1 = k)).map Prod.snd
  | [] => rfl
  | (h, v) :: row => by
    have ih := dictGet_casefold_lookup k row
    by_cases hv : pyStrip v ≠ ""
    · by_cases hk : pyCasefold h = k
      · simp [casefold_lookup, dictGet, hv, hk, List.filter_cons,
          List.find?_cons]
      · simp only [casefold_lookup, if_pos hv, dictGet]
        rw [List.filter_cons_of_pos (by simpa using hv),
          List.find?_cons_of_neg _ (by simpa using hk),
          List.find?_cons_of_neg _ (by simpa using hk)]
        exact ih
    · have hv' : pyStrip v = "" := not_not.mp (by simpa using hv)
      simp [casefold_lookup, hv, List.filter_cons, hv', ih]

/-- The head of the `normalized_lookup[k]` bucket is the value of the first
header in row order whose digit-normalized name is `k` and whose value is
non-empty. -/
theorem normalized_bucket_head (k : String) :
    ∀ (row : List (String × String)),
      (normalized_bucket row k).head? =
        ((row.filter (fun p => pyStrip p.2 ≠ "")).find?
          (fun p => normalize_header p.1 = k)).map Prod.snd
  | [] => rfl
  | (h, v) :: row => by
    have ih := normalized_bucket_head k row
    by_cases hv : pyStrip v ≠ ""
    · unfold normalized_bucket
      rw [List.filter_cons_of_pos (by simpa using hv)]
      by_cases hk : normalize_header h = k
      · rw [List.filterMap_cons_some (b := v) (by simp [hk]),
          List.find?_cons_of_pos _ (by simpa using hk)]
        rfl
      · rw [List.filterMap_cons_none (by simp [hk]),
          List.find?_cons_of_neg _ (by simpa using hk)]
        exact ih
    · have hskip : normalized_bucket ((h, v) :: row) k = normalized_bucket row k := by
        unfold normalized_bucket
        rw [List.filter_cons_of_neg (by simpa using hv)]
      rw [hskip, List.filter_cons_of_neg (by simpa using hv)]
      exact ih

/-- The candidate loop and the spec's declarative resolution agree. -/
theorem firstNonEmptyGo_eq_spec (row : List (String × String)) :
    ∀ candidates, firstNonEmptyGo row candidates = specFieldResolution row candidates
  | [] => rfl
  | c :: rest => by
    have ih := firstNonEmptyGo_eq_spec row rest
    by_cases hc : c = ""
    · simp [firstNonEmptyGo, specFieldResolution, hc, ih]
    · simp only [firstNonEmptyGo, specFieldResolution, if_neg hc]
      rw [dictGet_casefold_lookup, normalized_bucket_head]
      generalize dictGet row c = o1
      generalize dictGet row (pyStrip c) = o2
      generalize ((row.filter (fun p => pyStrip p.2 ≠ "")).find?
          (fun p => pyCasefold p.1 = pyCasefold c)).map Prod.snd = o3
      generalize ((row.filter (fun p => pyStrip p.2 ≠ "")).find?
          (fun p => normalize_header p.1 = normalize_header c)).map
          Prod.snd = o4
      cases o1 <;> cases o2 <;> cases o3 <;> cases o4 <;> simp [ih]

/-- `specFieldResolution` of an empty row is `UNKNOWN`. -/
theorem specFieldResolution_nil :
    ∀ candidates, specFieldResolution [] candidates = UNKNOWN_VALUE
  | [] => rfl
  | c :: rest => by
    have ih := specFieldResolution_nil rest
    by_cases hc : c = ""
    · simp [specFieldResolution, hc, ih]
    · simp [specFieldResolution, hc, ih, dictGet]

/-- C9: `_first_non_empty` implements the spec's resolution contract — per
candidate, exact header match first, then case-insensitive, then
digit-insensitive, first candidate with a non-empty trimmed value wins,
`UNKNOWN` otherwise; and on the metadata row with actual header
`characteristics_ch2_illness = "Flu"`, the candidate list
`("characteristics_ch1_Illness",)` resolves the illness label to `"Flu"`
via the digit-insensitive match. -/
theorem first_non_empty_implements_spec :
    (∀ (row : List (String × String)) (candidates : List String),
      first_non_empty row candidates = specFieldResolution row candidates) ∧
    first_non_empty
      [("refinebio_accession_code", "GSM1"), ("experiment_accession", "GSE1"),
        ("characteristics_ch2_illness", "Flu")]
      ["characteristics_ch1_Illness"] = "Flu" := by
  constructor
  · intro row candidates
    by_cases hrow : row = []
    · subst hrow
      simp [first_non_empty, specFieldResolution_nil]
    · simp [first_non_empty, hrow, firstNonEmptyGo_eq_spec]
  · decide

/-! ### Sample metadata merge (C3) -/

/-- C3 counterexample: a stored known platform key (1) and illness key (3)
are overwritten by different incoming known keys (2 and 4) — first-writer
-wins fails for the platform and illness fields. -/
theorem mergeSampleMetadata_overwrites_known_platform :
    mergeSampleMetadata
        ⟨"GSM1", 7, some 1, some 3, "34", "female"⟩
        ⟨"GSM1", "GSE1", "GPL2", "Sepsis", "34", "female"⟩
        (some 2) (some 4) =
      ⟨"GSM1", 7, some 2, some 4, "34", "female"⟩ := by decide

/-- C3 (amended): on re-ingestion of an existing sample row, age and sex
are first-writer-wins (filled in only when the stored value is empty or
`UNKNOWN`, never overwritten once known), while platform and illness are
last-known-writer-wins: whenever the incoming record resolves to a truthy
key that key is stored, overwriting any different known value; with no
incoming key they are left unchanged. -/
theorem mergeSampleMetadata_fields (stored : DimSample)
    (incoming : SampleMetadata) (pk ik : Option ℕ) :
    ((mergeSampleMetadata stored incoming pk ik).platform_key =
      if truthyKey pk ∧ stored.platform_key ≠ pk then pk
      else stored.platform_key) ∧
    ((mergeSampleMetadata stored incoming pk ik).illness_key =
      if truthyKey ik ∧ stored.illness_key ≠ ik then ik
      else stored.illness_key) ∧
    ((mergeSampleMetadata stored incoming pk ik).age =
      if incoming.age ≠ "" ∧ incoming.age ≠ UNKNOWN_VALUE ∧
        (stored.age = "" ∨ stored.age = UNKNOWN_VALUE) then incoming.age
      else stored.age) ∧
    ((mergeSampleMetadata stored incoming pk ik).sex =
      if incoming.sex ≠ "" ∧ incoming.sex ≠ UNKNOWN_VALUE ∧
        (stored.sex = "" ∨ stored.sex = UNKNOWN_VALUE) then incoming.sex
      else stored.sex) := by
  unfold mergeSampleMetadata
  refine ⟨?_, ?_, ?_, ?_⟩ <;>
    simp only [apply_ite (DimSample.platform_key),
      apply_ite (DimSample.illness_key), apply_ite (DimSample.age),
      apply_ite (DimSample.sex)] <;>
    simp

theorem mergeSampleMetadata_merge_rules (stored : DimSample)
    (incoming : SampleMetadata) (pk ik : Option ℕ) :
    ((mergeSampleMetadata stored incoming pk ik).platform_key =
      if truthyKey pk then pk else stored.platform_key) ∧
    ((mergeSampleMetadata stored incoming pk ik).illness_key =
      if truthyKey ik then ik else stored.illness_key) ∧
    (stored.age ≠ "" → stored.age ≠ UNKNOWN_VALUE →
      (mergeSampleMetadata stored incoming pk ik).age = stored.age) ∧
    ((stored.age = "" ∨ stored.age = UNKNOWN_VALUE) → incoming.age ≠ "" →
      incoming.age ≠ UNKNOWN_VALUE →
      (mergeSampleMetadata stored incoming pk ik).age = incoming.age) ∧
    (stored.sex ≠ "" → stored.sex ≠ UNKNOWN_VALUE →
      (mergeSampleMetadata stored incoming pk ik).sex = stored.sex) ∧
    ((stored.sex = "" ∨ stored.sex = UNKNOWN_VALUE) → incoming.sex ≠ "" →
      incoming.sex ≠ UNKNOWN_VALUE →
      (mergeSampleMetadata stored incoming pk ik).sex = incoming.sex) := by
  obtain ⟨hp, hi, ha, hs⟩ := mergeSampleMetadata_fields stored incoming pk ik
  refine ⟨?_, ?_, ?_, ?_, ?_, ?_⟩
  · rw [hp]
    split_ifs with h1 h2 <;> simp_all
  · rw [hi]
    split_ifs with h1 h2 <;> simp_all
  · intro h1 h2
    rw [ha]
    split_ifs with h3 <;> simp_all
  · intro h1 h2 h3
    rw [ha]
    split_ifs with h4 <;> simp_all
  · intro h1 h2
    rw [hs]
    split_ifs with h3 <;> simp_all
  · intro h1 h2 h3
    rw [hs]
    split_ifs with h4 <;> simp_all

/-- Witness for the C3 merge rules: a known age survives, an unknown sex is
filled in, at a concrete stored row and incoming record. -/
theorem mergeSampleMetadata_merge_rules_witness :
    (mergeSampleMetadata ⟨"GSM2", 7, none, none, "41", "UNKNOWN"⟩
      ⟨"GSM2", "GSE1", "", "", "52", "male"⟩ none none).age = "41" ∧
    (mergeSampleMetadata ⟨"GSM2", 7, none, none, "41", "UNKNOWN"⟩
      ⟨"GSM2", "GSE1", "", "", "52", "male"⟩ none none).sex = "male" :=
  ⟨(mergeSampleMetadata_merge_rules _ _ _ _).2.2.1 (by decide) (by decide),
    (mergeSampleMetadata_merge_rules _ _ _ _).2.2.2.2.2 (by decide)
      (by decide) (by decide)⟩

/-! ### Dimension get-or-create (C4) -/

/-- Rows with the same natural key coincide when the table's natural keys
are distinct. -/
theorem eq_of_snd_nodup {l : List (ℕ × String)}
    (hnd : (l.map Prod.snd).Nodup) :
    ∀ a ∈ l, ∀ b ∈ l, a.2 = b.2 → a = b := by
  induction l with
  | nil => simp
  | cons p l ih =>
    simp only [List.map_cons, List.nodup_cons] at hnd
    intro a ha b hb hs
    rcases List.mem_cons.mp ha with ha1 | ha1 <;>
      rcases List.mem_cons.mp hb with hb1 | hb1
    · rw [ha1, hb1]
    · exfalso
      apply hnd.1
      have hpb : p.2 = b.2 := by rw [← ha1]; exact hs
      rw [hpb]
      exact List.mem_map.mpr ⟨b, hb1, rfl⟩
    · exfalso
      apply hnd.1
      have hpa : p.2 = a.2 := by rw [← hb1]; exact hs.symm
      rw [hpa]
      exact List.mem_map.mpr ⟨a, ha1, rfl⟩
    · exact ih hnd.2 a ha1 b hb1 hs

/-- A successful `dictGet` pinpoints a cache entry. -/
theorem dictGet_mem {β : Type} {d : List (String × β)} {k : String} {b : β}
    (h : dictGet d k = some b) : (k, b) ∈ d := by
  unfold dictGet at h
  obtain ⟨p, hfind, hb⟩ := Option.map_eq_some'.mp h
  have hp := List.mem_of_find?_eq_some hfind
  have hpk : p.1 = k := by simpa using List.find?_some hfind
  have hpeq : p = (k, b) := by
    obtain ⟨p1, p2⟩ := p
    simp_all
  exact hpeq ▸ hp

/-- A successful `selectKey` pinpoints a table row. -/
theorem selectKey_mem {t : DimTable} {v : String} {k : ℕ}
    (h : selectKey t v = some k) : (k, v) ∈ t.rows := by
  unfold selectKey at h
  obtain ⟨r, hfind, hk⟩ := Option.map_eq_some'.mp h
  have hr := List.mem_of_find?_eq_some hfind
  have hrv : r.2 = v := by simpa using List.find?_some hfind
  have hreq : r = (k, v) := by
    obtain ⟨r1, r2⟩ := r
    simp_all
  exact hreq ▸ hr

/-- With distinct natural keys, a present row is the one `selectKey`
finds. -/
theorem selectKey_eq_some_of_mem {t : DimTable} {v : String} {k : ℕ}
    (hnd : (t.rows.map Prod.snd).Nodup) (h : (k, v) ∈ t.rows) :
    selectKey t v = some k := by
  unfold selectKey
  have hex : (t.rows.find? (fun r => r.2 = v)).isSome :=
    List.find?_isSome.mpr ⟨(k, v), h, by simp⟩
  obtain ⟨r, hr⟩ := Option.isSome_iff_exists.mp hex
  have hrmem := List.mem_of_find?_eq_some hr
  have hrv : r.2 = v := by simpa using List.find?_some hr
  have := eq_of_snd_nodup hnd r hrmem (k, v) h (by simpa using hrv)
  rw [hr, this]
  rfl

/-- `selectKey` fails exactly on absent natural keys. -/
theorem selectKey_eq_none {t : DimTable} {v : String} :
    selectKey t v = none ↔ ∀ r ∈ t.rows, r.2 ≠ v := by
  unfold selectKey
  simp [List.find?_eq_none]

/-- The conditional insert either leaves the table unchanged or appends the
new row when the key was absent. -/
theorem insertOnConflict_rows (t : DimTable) (v : String) :
    (insertOnConflictDoNothing t v).rows = t.rows ∨
      ((insertOnConflictDoNothing t v).rows = t.rows ++ [(t.nextKey, v)] ∧
        ∀ r ∈ t.rows, r.2 ≠ v) := by
  unfold insertOnConflictDoNothing
  split_ifs with h
  · exact Or.inl rfl
  · refine Or.inr ⟨rfl, fun r hr hrv => h ?_⟩
    simp only [List.any_eq_true]
    exact ⟨r, hr, by simpa using hrv⟩

/-- The conditional insert preserves distinctness of natural keys. -/
theorem insertOnConflict_nodup (t : DimTable) (v : String)
    (hnd : (t.rows.map Prod.snd).Nodup) :
    ((insertOnConflictDoNothing t v).rows.map Prod.snd).Nodup := by
  rcases insertOnConflict_rows t v with h | ⟨h, habs⟩
  · rw [h]; exact hnd
  · rw [h, List.map_append]
    refine List.Nodup.append hnd (by simp) ?_
    intro a ha hb
    simp only [List.map_cons, List.map_nil, List.mem_singleton] at hb
    obtain ⟨r, hr, hra⟩ := List.mem_map.mp ha
    subst hb
    exact habs r hr hra

/-- Single complete run of `_get_or_create_unique_dimension` (sqlite path):
it succeeds, returns a key persisted for `v`, the key for `v` is unique,
rows are only added, distinctness is preserved and the updated cache stays
sound. -/
theorem get_or_create_unique_dimension_run (cache : List (String × ℕ))
    (t : DimTable) (v : String)
    (hsound : ∀ p ∈ cache, (p.2, p.1) ∈ t.rows)
    (hnd : (t.rows.map Prod.snd).Nodup) :
    ∃ k cache' t',
      get_or_create_unique_dimension cache t v = some (k, cache', t') ∧
      (k, v) ∈ t'.rows ∧
      ((t'.rows.map Prod.snd).Nodup) ∧
      (∀ r ∈ t.rows, r ∈ t'.rows) ∧
      (∀ k', (k', v) ∈ t'.rows → k' = k) ∧
      (∀ p ∈ cache', (p.2, p.1) ∈ t'.rows) := by
  unfold get_or_create_unique_dimension
  cases hc : dictGet cache v with
  | some k =>
    have hmem : (k, v) ∈ t.rows := hsound (v, k) (dictGet_mem hc)
    refine ⟨k, cache, t, by simp, hmem, hnd, fun r hr => hr, ?_, hsound⟩
    intro k' hk'
    exact congrArg Prod.fst (eq_of_snd_nodup hnd (k', v) hk' (k, v) hmem rfl)
  | none =>
    cases hs : selectKey t v with
    | some k =>
      have hmem := selectKey_mem hs
      refine ⟨k, cache ++ [(v, k)], t, by simp, hmem, hnd, fun r hr => hr, ?_, ?_⟩
      · intro k' hk'
        exact congrArg Prod.fst (eq_of_snd_nodup hnd (k', v) hk' (k, v) hmem rfl)
      · intro p hp
        rcases List.mem_append.mp hp with hp | hp
        · exact hsound p hp
        · simp only [List.mem_singleton] at hp
          subst hp
          exact hmem
    | none =>
      have habs : ∀ r ∈ t.rows, r.2 ≠ v := selectKey_eq_none.mp hs
      have hins : (insertOnConflictDoNothing t v).rows =
          t.rows ++ [(t.nextKey, v)] := by
        unfold insertOnConflictDoNothing
        rw [if_neg]
        simp only [List.any_eq_true, not_exists]
        intro r
        rintro ⟨hr, hrv⟩
        exact habs r hr (by simpa using hrv)
      have hnd2 := insertOnConflict_nodup t v hnd
      have hmem : (t.nextKey, v) ∈ (insertOnConflictDoNothing t v).rows := by
        rw [hins]; simp
      have hs2 : selectKey (insertOnConflictDoNothing t v) v =
          some t.nextKey := selectKey_eq_some_of_mem hnd2 hmem
      refine ⟨t.nextKey, cache ++ [(v, t.nextKey)], insertOnConflictDoNothing t v,
        by simp [hs2], hmem, hnd2, ?_, ?_, ?_⟩
      · intro r hr
        rw [hins]
        exact List.mem_append_left _ hr
      · intro k' hk'
        exact congrArg Prod.fst
          (eq_of_snd_nodup hnd2 (k', v) hk' (t.nextKey, v) hmem rfl)
      · intro p hp
        rcases List.mem_append.mp hp with hp | hp
        · rw [hins]
          exact List.mem_append_left _ (hsound p hp)
        · simp only [List.mem_singleton] at hp
          subst hp
          exact hmem

/-- The per-worker invariant of the interleaved race: after its insert a
row for `v` exists; a finished worker's key is persisted for `v`; the
`scalar_one` failure state is unreachable. -/
def WorkerInv (v : String) (w : Worker) (t : DimTable) : Prop :=
  (w = .needReselect → ∃ k, (k, v) ∈ t.rows) ∧
  (∀ k, w = .done k → (k, v) ∈ t.rows) ∧ w ≠ .failed

/-- `WorkerInv` only looks at row membership, so it survives row growth. -/
theorem workerInv_mono {v : String} {u : Worker} {t t' : DimTable}
    (hsub : ∀ r ∈ t.rows, r ∈ t'.rows) (h : WorkerInv v u t) :
    WorkerInv v u t' :=
  ⟨fun hr => (h.1 hr).imp (fun _ hk => hsub _ hk),
    fun k hk => hsub _ (h.2.1 k hk), h.2.2⟩

/-- One atomic step preserves the stepping worker's invariant, only adds
rows, and keeps natural keys distinct. -/
theorem workerInv_done {v : String} {k : ℕ} {t : DimTable}
    (h : (k, v) ∈ t.rows) : WorkerInv v (.done k) t :=
  ⟨by simp, fun k' hk' => by
    injection hk' with h3
    exact h3 ▸ h, by simp⟩

theorem workerInv_needInsert {v : String} {t : DimTable} :
    WorkerInv v .needInsert t :=
  ⟨by simp, by simp, by simp⟩

theorem workerInv_needReselect {v : String} {t : DimTable}
    (h : ∃ k, (k, v) ∈ t.rows) : WorkerInv v .needReselect t :=
  ⟨fun _ => h, by simp, by simp⟩

/-- One atomic step preserves the stepping worker's invariant, only adds
rows, and keeps natural keys distinct. -/
theorem workerStep_inv {v : String} {w : Worker} {t : DimTable}
    {w' : Worker} {t' : DimTable} (hstep : workerStep v w t = (w', t'))
    (hnd : (t.rows.map Prod.snd).Nodup) (hw : WorkerInv v w t) :
    WorkerInv v w' t' ∧ (∀ r ∈ t.rows, r ∈ t'.rows) ∧
      ((t'.rows.map Prod.snd).Nodup) := by
  cases w with
  | ready =>
    cases hs : selectKey t v with
    | some k =>
      simp only [workerStep, hs] at hstep
      injection hstep with h1 h2
      subst h1
      subst h2
      exact ⟨workerInv_done (selectKey_mem hs), fun r hr => hr, hnd⟩
    | none =>
      simp only [workerStep, hs] at hstep
      injection hstep with h1 h2
      subst h1
      subst h2
      exact ⟨workerInv_needInsert, fun r hr => hr, hnd⟩
  | needInsert =>
    simp only [workerStep] at hstep
    injection hstep with h1 h2
    subst h1
    subst h2
    refine ⟨workerInv_needReselect ?_, ?_, insertOnConflict_nodup t v hnd⟩
    · unfold insertOnConflictDoNothing
      split_ifs with h
      · obtain ⟨r, hr, hrv⟩ := List.any_eq_true.mp h
        refine ⟨r.1, ?_⟩
        have h2 : r.2 = v := by simpa using hrv
        rw [← h2]
        exact hr
      · exact ⟨t.nextKey, by simp⟩
    · intro r hr
      rcases insertOnConflict_rows t v with h | ⟨h, -⟩
      · rw [h]; exact hr
      · rw [h]; exact List.mem_append_left _ hr
  | needReselect =>
    cases hs : selectKey t v with
    | some k =>
      simp only [workerStep, hs] at hstep
      injection hstep with h1 h2
      subst h1
      subst h2
      exact ⟨workerInv_done (selectKey_mem hs), fun r hr => hr, hnd⟩
    | none =>
      obtain ⟨k, hk⟩ := hw.1 rfl
      exact absurd rfl (selectKey_eq_none.mp hs (k, v) hk)
  | done k =>
    simp only [workerStep] at hstep
    injection hstep with h1 h2
    subst h1
    subst h2
    exact ⟨hw, fun r hr => hr, hnd⟩
  | failed => exact absurd rfl hw.2.2

theorem workerInv_ready {v : String} {t : DimTable} : WorkerInv v .ready t :=
  ⟨by simp, by simp, by simp⟩

/-- Distinct natural keys and both worker invariants are preserved along
every schedule of the interleaved race. -/
theorem runSched_inv (v : String) :
    ∀ (sched : List Bool) (w1 w2 : Worker) (t : DimTable)
      (w1' w2' : Worker) (t' : DimTable),
      runSched v sched (w1, w2, t) = (w1', w2', t') →
      (t.rows.map Prod.snd).Nodup → WorkerInv v w1 t → WorkerInv v w2 t →
      ((t'.rows.map Prod.snd).Nodup) ∧ WorkerInv v w1' t' ∧ WorkerInv v w2' t'
  | [], w1, w2, t, w1', w2', t', hrun, hnd, h1, h2 => by
    simp only [runSched] at hrun
    injection hrun with e1 e2
    injection e2 with e2 e3
    subst e1
    subst e2
    subst e3
    exact ⟨hnd, h1, h2⟩
  | b :: sched, w1, w2, t, w1', w2', t', hrun, hnd, h1, h2 => by
    cases b with
    | true =>
      rcases hws : workerStep v w1 t with ⟨w1'', t''⟩
      simp only [runSched, if_pos, hws] at hrun
      obtain ⟨h1', hsub, hnd'⟩ := workerStep_inv hws hnd h1
      exact runSched_inv v sched w1'' w2 t'' w1' w2' t' hrun hnd' h1'
        (workerInv_mono hsub h2)
    | false =>
      rcases hws : workerStep v w2 t with ⟨w2'', t''⟩
      simp only [runSched, hws] at hrun
      obtain ⟨h2', hsub, hnd'⟩ := workerStep_inv hws hnd h2
      exact runSched_inv v sched w1 w2'' t'' w1' w2' t' hrun hnd'
        (workerInv_mono hsub h1) h2'

/-- C4 counterexample: for the study dimension kind, a second worker whose
independent cache misses the accession does not get the surrogate key back:
worker A creates `GSE1` (key 1); worker B, with a fresh cache and the row
already persisted, raises a uniqueness violation on its unconditional
insert. -/
theorem get_or_create_study_concurrent_raises :
    get_or_create_study [] ⟨[], 1⟩ "GSE1" =
      .ok (1, [("GSE1", 1)], ⟨[(1, "GSE1")], 2⟩) ∧
    get_or_create_study [] ⟨[(1, "GSE1")], 2⟩ "GSE1" = .error () :=
  ⟨rfl, rfl⟩

/-- C4 (amended): for the gene / platform / illness dimensions —
`_get_or_create_unique_dimension` on the sqlite dialect — get-or-create is
idempotent: (1) run twice sequentially by workers with independent sound
caches, both calls return the same surrogate key, the key is persisted for
the natural key and no second row for it is ever created; (2) under every
interleaving of the two workers' atomic database steps (select, conditional
insert, re-select), both workers finish with the same key and the natural
key has exactly one persisted row.  (3) For the study dimension the
guarantee fails: `get_or_create_study` inserts unconditionally, so a worker
whose cache misses an already-persisted accession raises a uniqueness
violation instead of returning the existing key. -/
theorem dimension_get_or_create_idempotent :
    (∀ (cache1 cache2 : List (String × ℕ)) (t : DimTable) (v : String),
      (∀ p ∈ cache1, (p.2, p.1) ∈ t.rows) →
      ((t.rows.map Prod.snd).Nodup) →
      ∃ k c1' t1,
        get_or_create_unique_dimension cache1 t v = some (k, c1', t1) ∧
        (k, v) ∈ t1.rows ∧
        (∀ k', (k', v) ∈ t1.rows → k' = k) ∧
        ((∀ p ∈ cache2, (p.2, p.1) ∈ t1.rows) →
          ∃ c2', get_or_create_unique_dimension cache2 t1 v =
            some (k, c2', t1))) ∧
    (∀ (t : DimTable) (v : String) (sched : List Bool)
      (w1' w2' : Worker) (t' : DimTable) (k1 k2 : ℕ),
      ((t.rows.map Prod.snd).Nodup) →
      runSched v sched (.ready, .ready, t) = (w1', w2', t') →
      w1' = .done k1 → w2' = .done k2 →
      k1 = k2 ∧ (k1, v) ∈ t'.rows ∧ (∀ k', (k', v) ∈ t'.rows → k' = k1)) ∧
    (∀ (cache : List (String × ℕ)) (t : DimTable) (v : String),
      dictGet cache v = none → (∃ k, (k, v) ∈ t.rows) →
      get_or_create_study cache t v = .error ()) := by
  refine ⟨?_, ?_, ?_⟩
  · intro cache1 cache2 t v hsound1 hnd
    obtain ⟨k, c1', t1, hrunA, hmem, hnd1, hsub, huniq, hsound1'⟩ :=
      get_or_create_unique_dimension_run cache1 t v hsound1 hnd
    refine ⟨k, c1', t1, hrunA, hmem, huniq, ?_⟩
    intro hsound2
    unfold get_or_create_unique_dimension
    cases hc : dictGet cache2 v with
    | some k2 =>
      have hk2 : k2 = k := huniq k2 (hsound2 (v, k2) (dictGet_mem hc))
      subst hk2
      exact ⟨cache2, by simp⟩
    | none =>
      rw [selectKey_eq_some_of_mem hnd1 hmem]
      exact ⟨cache2 ++ [(v, k)], by simp⟩
  · intro t v sched w1' w2' t' k1 k2 hnd hrun hw1 hw2
    obtain ⟨hnd', h1', h2'⟩ := runSched_inv v sched .ready .ready t w1' w2' t'
      hrun hnd workerInv_ready workerInv_ready
    have hm1 : (k1, v) ∈ t'.rows := h1'.2.1 k1 hw1
    have hm2 : (k2, v) ∈ t'.rows := h2'.2.1 k2 hw2
    have h12 : k1 = k2 :=
      congrArg Prod.fst (eq_of_snd_nodup hnd' (k1, v) hm1 (k2, v) hm2 rfl)
    exact ⟨h12, hm1, fun k' hk' =>
      congrArg Prod.fst (eq_of_snd_nodup hnd' (k', v) hk' (k1, v) hm1 rfl)⟩
  · intro cache t v hc hmem
    obtain ⟨k, hk⟩ := hmem
    unfold get_or_create_study
    rw [hc]
    rw [if_pos (List.any_eq_true.mpr ⟨(k, v), hk, by simp⟩)]

/-- Witness for the amended C4 theorem: a fresh gene key `ENSG1` created
and re-fetched sequentially; the classic select-select-insert-insert race
converging to key 1; and the study-path uniqueness failure. -/
theorem dimension_get_or_create_idempotent_witness :
    (∃ k c1' t1,
      get_or_create_unique_dimension [] ⟨[], 1⟩ "ENSG1" = some (k, c1', t1) ∧
      (k, "ENSG1") ∈ t1.rows ∧
      (∀ k', (k', "ENSG1") ∈ t1.rows → k' = k) ∧
      ((∀ p ∈ ([] : List (String × ℕ)), (p.2, p.1) ∈ t1.rows) →
        ∃ c2', get_or_create_unique_dimension [] t1 "ENSG1" =
          some (k, c2', t1))) ∧
    (1 = 1 ∧ (1, "ENSG1") ∈ (DimTable.mk [(1, "ENSG1")] 2).rows ∧
      (∀ k', (k', "ENSG1") ∈ (DimTable.mk [(1, "ENSG1")] 2).rows → k' = 1)) ∧
    get_or_create_study [] ⟨[(1, "GSE1")], 2⟩ "GSE1" = .error () :=
  ⟨dimension_get_or_create_idempotent.1 [] [] ⟨[], 1⟩ "ENSG1"
      (by simp) (by simp),
    dimension_get_or_create_idempotent.2.1 ⟨[], 1⟩ "ENSG1"
      [true, false, true, false, true, false] (.done 1) (.done 1)
      ⟨[(1, "ENSG1")], 2⟩ 1 1 (by simp) rfl rfl rfl,
    dimension_get_or_create_idempotent.2.2 [] ⟨[(1, "GSE1")], 2⟩ "GSE1"
      rfl ⟨1, by simp⟩⟩

/-! ### Benjamini–Hochberg lemmas (C5) -/

/-- Concrete evaluation of the correction: `[0, 1] ↦ [0, 1]` (the second
entry gets rank 2 of 2, raw `1·2/2 = 1`; the first gets raw `0`). -/
theorem bh_eval_example :
    benjamini_hochberg [some (0 : ℚ), some 1] = [some 0, some 1] := by
  norm_num [benjamini_hochberg, bhSorted, bhWalk, assocGet, List.enum,
    List.enumFrom, List.insertionSort, List.orderedInsert, optKeyLe,
    List.range, List.range.loop, min_def]

theorem assocGet_mem {κ β : Type} [DecidableEq κ] {d : List (κ × β)} {k : κ}
    {b : β} (h : assocGet d k = some b) : (k, b) ∈ d := by
  unfold assocGet at h
  obtain ⟨p, hfind, hb⟩ := Option.map_eq_some'.mp h
  have hp := List.mem_of_find?_eq_some hfind
  have hpk : p.1 = k := by simpa using List.find?_some hfind
  have hpeq : p = (k, b) := by
    obtain ⟨p1, p2⟩ := p
    simp_all
  exact hpeq ▸ hp

theorem assocGet_of_mem_nodup {κ β : Type} [DecidableEq κ] :
    ∀ {d : List (κ × β)} {k : κ} {b : β},
      (d.map Prod.fst).Nodup → (k, b) ∈ d → assocGet d k = some b := by
  intro d
  induction d with
  | nil =>
    intro k b _ h
    simp at h
  | cons p d ih =>
    intro k b hnd hmem
    obtain ⟨p1, p2⟩ := p
    simp only [List.map_cons, List.nodup_cons] at hnd
    rcases List.mem_cons.mp hmem with heq | hmem
    · injection heq with h1 h2
      subst h1
      subst h2
      simp [assocGet]
    · have hk : ¬((p1, p2).1 = k) := by
        intro he
        apply hnd.1
        rw [show p1 = k from he]
        exact List.mem_map.mpr ⟨(k, b), hmem, rfl⟩
      have hskip : assocGet ((p1, p2) :: d) k = assocGet d k := by
        unfold assocGet
        rw [List.find?_cons_of_neg _ (by simpa using hk)]
      rw [hskip]
      exact ih hnd.2 hmem

theorem bhWalk_map_fst {α : Type} [LinearOrderedField α]
    [DecidableRel ((· ≤ ·) : α → α → Prop)] (m : ℕ) :
    ∀ (prev : α) (rank : ℕ) (l : List (ℕ × Option α)),
      (bhWalk m prev rank l).map Prod.fst = l.map Prod.fst
  | _, _, [] => rfl
  | prev, rank, (idx, none) :: rest => by
    simp only [bhWalk, List.map_cons]
    rw [bhWalk_map_fst m prev (rank + 1) rest]
  | prev, rank, (idx, some p) :: rest => by
    simp only [bhWalk, List.map_cons]
    rw [bhWalk_map_fst m _ (rank + 1) rest]

theorem bhWalk_le {α : Type} [LinearOrderedField α]
    [DecidableRel ((· ≤ ·) : α → α → Prop)] (m : ℕ) :
    ∀ (prev : α) (rank : ℕ) (l : List (ℕ × Option α)) (e : ℕ × Option α),
      e ∈ bhWalk m prev rank l → ∀ x, e.2 = some x → x ≤ min prev 1
  | prev, rank, [], e, he => by simp [bhWalk] at he
  | prev, rank, (idx, none) :: rest, e, he => by
    intro x hx
    simp only [bhWalk, List.mem_cons] at he
    rcases he with rfl | he
    · simp at hx
    · exact bhWalk_le m prev (rank + 1) rest e he x hx
  | prev, rank, (idx, some p) :: rest, e, he => by
    intro x hx
    simp only [bhWalk, List.mem_cons] at he
    rcases he with rfl | he
    · have hx2 : min (min prev (p * (m : α) / ((m - rank + 1 : ℕ) : α))) 1 = x := by
        simpa using hx
      rw [← hx2]
      exact le_min (le_trans (min_le_left _ _) (min_le_left _ _))
        (min_le_right _ _)
    · have := bhWalk_le m (min prev (p * (m : α) / ((m - rank + 1 : ℕ) : α)))
        (rank + 1) rest e he x hx
      exact le_trans this (min_le_min_right 1 (min_le_left _ _))

theorem bhWalk_pairwise {α : Type} [LinearOrderedField α]
    [DecidableRel ((· ≤ ·) : α → α → Prop)] (m : ℕ) :
    ∀ (prev : α) (rank : ℕ) (l : List (ℕ × Option α)),
      (bhWalk m prev rank l).Pairwise
        (fun a b => ∀ x y, a.2 = some x → b.2 = some y → y ≤ x)
  | prev, rank, [] => by simp [bhWalk]
  | prev, rank, (idx, none) :: rest => by
    simp only [bhWalk]
    refine List.pairwise_cons.mpr ⟨?_, bhWalk_pairwise m prev (rank + 1) rest⟩
    intro b hb x y hx hy
    simp at hx
  | prev, rank, (idx, some p) :: rest => by
    simp only [bhWalk]
    refine List.pairwise_cons.mpr ⟨?_, bhWalk_pairwise m _ (rank + 1) rest⟩
    intro b hb x y hx hy
    have hx2 : min (min prev (p * (m : α) / ((m - rank + 1 : ℕ) : α))) 1 = x := by
      simpa using hx
    have hy2 := bhWalk_le m (min prev (p * (m : α) / ((m - rank + 1 : ℕ) : α)))
      (rank + 1) rest b hb y hy
    rw [← hx2]
    exact hy2

theorem bhWalk_mem_none {α : Type} [LinearOrderedField α]
    [DecidableRel ((· ≤ ·) : α → α → Prop)] (m : ℕ) :
    ∀ (prev : α) (rank : ℕ) (l : List (ℕ × Option α)) (idx : ℕ),
      (idx, none) ∈ l → (idx, none) ∈ bhWalk m prev rank l
  | prev, rank, [], idx, h => by simp at h
  | prev, rank, (i0, none) :: rest, idx, h => by
    simp only [bhWalk, List.mem_cons]
    rcases List.mem_cons.mp h with heq | h
    · exact Or.inl heq
    · exact Or.inr (bhWalk_mem_none m prev (rank + 1) rest idx h)
  | prev, rank, (i0, some p) :: rest, idx, h => by
    simp only [bhWalk, List.mem_cons]
    rcases List.mem_cons.mp h with heq | h
    · exact absurd heq (by simp)
    · exact Or.inr (bhWalk_mem_none m _ (rank + 1) rest idx h)

theorem bhWalk_range {α : Type} [LinearOrderedField α]
    [DecidableRel ((· ≤ ·) : α → α → Prop)] (m : ℕ) :
    ∀ (prev : α) (rank : ℕ) (l : List (ℕ × Option α)),
      0 ≤ prev → (∀ e ∈ l, ∀ x, e.2 = some x → 0 ≤ x) →
      ∀ e ∈ bhWalk m prev rank l, ∀ y, e.2 = some y → 0 ≤ y ∧ y ≤ 1
  | prev, rank, [], _, _, e, he => by simp [bhWalk] at he
  | prev, rank, (idx, none) :: rest, hprev, hl, e, he => by
    intro y hy
    simp only [bhWalk, List.mem_cons] at he
    rcases he with rfl | he
    · simp at hy
    · exact bhWalk_range m prev (rank + 1) rest hprev
        (fun e2 he2 => hl e2 (List.mem_cons_of_mem _ he2)) e he y hy
  | prev, rank, (idx, some p) :: rest, hprev, hl, e, he => by
    intro y hy
    have hp : (0 : α) ≤ p := hl (idx, some p) (by simp) p rfl
    have hraw : (0 : α) ≤ p * (m : α) / ((m - rank + 1 : ℕ) : α) :=
      div_nonneg (mul_nonneg hp (Nat.cast_nonneg _)) (Nat.cast_nonneg _)
    simp only [bhWalk, List.mem_cons] at he
    rcases he with rfl | he
    · have hy2 : min (min prev (p * (m : α) / ((m - rank + 1 : ℕ) : α))) 1 = y := by
        simpa using hy
      rw [← hy2]
      exact ⟨le_min (le_min hprev hraw) zero_le_one, min_le_right _ _⟩
    · exact bhWalk_range m _ (rank + 1) rest (le_min hprev hraw)
        (fun e2 he2 => hl e2 (List.mem_cons_of_mem _ he2)) e he y hy

theorem snd_mem_of_mem_enum {β : Type} {ps : List β} {e : ℕ × β}
    (h : e ∈ ps.enum) : e.2 ∈ ps := by
  obtain ⟨u, hu, hue⟩ := List.mem_iff_getElem.mp h
  have hlen : u < ps.length := by simpa using hu
  rw [← hue, List.getElem_enum]
  exact List.getElem_mem hlen

/-- C5: the Benjamini–Hochberg correction returns one q-value per input;
a `NaN` (`none`) p-value maps to a null q-value (never 0); every non-null
q-value of a within-cohort input (p-values in `[0,1]`) lies in `[0,1]`;
and on NaN-free input, whenever `p_i < p_j` the q-values satisfy
`q_i ≤ q_j` — ordered by increasing p-value, the q-values are
non-decreasing. -/
theorem benjamini_hochberg_spec (ps : List (Option ℚ))
    (hrange : ∀ p ∈ ps, ∀ x : ℚ, p = some x → 0 ≤ x ∧ x ≤ 1) :
    ((benjamini_hochberg ps).length = ps.length) ∧
    (∀ i, i < ps.length → ps.getD i none = none →
      (benjamini_hochberg ps).getD i none = none) ∧
    (∀ i, i < ps.length → ∀ q : ℚ,
      (benjamini_hochberg ps).getD i none = some q → 0 ≤ q ∧ q ≤ 1) ∧
    (none ∉ ps →
      ∀ i j, i < ps.length → j < ps.length →
      ∀ pi pj qi qj : ℚ,
        ps.getD i none = some pi → ps.getD j none = some pj → pi < pj →
        (benjamini_hochberg ps).getD i none = some qi →
        (benjamini_hochberg ps).getD j none = some qj → qi ≤ qj) := by
  by_cases hps : ps = []
  · subst hps
    refine ⟨by simp [benjamini_hochberg], ?_, ?_, ?_⟩ <;>
      intro i <;> simp
  · have hunf : benjamini_hochberg ps =
        (List.range ps.length).map
          (fun i => (assocGet (bhWalk ps.length 1 1 (bhSorted ps).reverse)
            i).getD none) := by
      simp only [benjamini_hochberg, if_neg hps]
    have hLperm : (bhSorted ps).Perm ps.enum := List.perm_insertionSort _ _
    have hLlen : (bhSorted ps).length = ps.length := by
      simpa using hLperm.length_eq
    have hRlen : (bhSorted ps).reverse.length = ps.length := by
      simpa using hLlen
    have hfst : (bhWalk ps.length 1 1 (bhSorted ps).reverse).map Prod.fst =
        ((bhSorted ps).map Prod.fst).reverse := by
      rw [bhWalk_map_fst, List.map_reverse]
    have hfst_nodup :
        ((bhWalk ps.length 1 1 (bhSorted ps).reverse).map Prod.fst).Nodup := by
      rw [hfst, List.nodup_reverse]
      have hperm2 : ((bhSorted ps).map Prod.fst).Perm (List.range ps.length) := by
        have := hLperm.map Prod.fst
        rwa [List.enum_map_fst] at this
      exact hperm2.nodup_iff.mpr (List.nodup_range _)
    have hasglen : (bhWalk ps.length 1 1 (bhSorted ps).reverse).length =
        ps.length := by
      have := congrArg List.length hfst
      simpa [hLlen] using this
    have hq : ∀ i, i < ps.length → (benjamini_hochberg ps).getD i none =
        (assocGet (bhWalk ps.length 1 1 (bhSorted ps).reverse) i).getD none := by
      intro i hi
      rw [hunf, List.getD_eq_getElem _ _ (by simpa using hi),
        List.getElem_map, List.getElem_range]
    have hmemL : ∀ i, i < ps.length → (i, ps.getD i none) ∈ bhSorted ps := by
      intro i hi
      refine hLperm.mem_iff.mpr ?_
      have he : i < ps.enum.length := by simpa using hi
      have hee : ps.enum[i] = (i, ps[i]) := List.getElem_enum _ _ he
      rw [List.getD_eq_getElem _ _ hi, ← hee]
      exact List.getElem_mem he
    refine ⟨by rw [hunf]; simp, ?_, ?_, ?_⟩
    · -- NaN maps to null
      intro i hi hnone
      have hmem : (i, (none : Option ℚ)) ∈ (bhSorted ps).reverse := by
        rw [List.mem_reverse]
        have := hmemL i hi
        rwa [hnone] at this
      have hmem2 := bhWalk_mem_none ps.length 1 1 _ i hmem
      rw [hq i hi, assocGet_of_mem_nodup hfst_nodup hmem2]
      rfl
    · -- range
      intro i hi q hsome
      rw [hq i hi] at hsome
      have hget : assocGet (bhWalk ps.length 1 1 (bhSorted ps).reverse) i =
          some (some q) := by
        cases hcase : assocGet (bhWalk ps.length 1 1 (bhSorted ps).reverse) i with
        | none => rw [hcase] at hsome; simp at hsome
        | some o => rw [hcase] at hsome; simp at hsome; rw [hsome]
      have hmem := assocGet_mem hget
      refine bhWalk_range ps.length 1 1 _ zero_le_one ?_ _ hmem q rfl
      intro e he x hx
      have heL : e ∈ bhSorted ps := List.mem_reverse.mp he
      have heE : e ∈ ps.enum := hLperm.mem_iff.mp heL
      have := snd_mem_of_mem_enum heE
      exact (hrange e.2 this x hx).1
    · -- monotone on NaN-free input
      intro hnn i j hi hj pi pj qi qj hpi hpj hlt hqi hqj
      have hmemLi : (i, some pi) ∈ bhSorted ps := by
        have := hmemL i hi
        rwa [hpi] at this
      have hmemLj : (j, some pj) ∈ bhSorted ps := by
        have := hmemL j hj
        rwa [hpj] at this
      obtain ⟨ti, hti, htie⟩ := List.mem_iff_getElem.mp hmemLi
      obtain ⟨tj, htj, htje⟩ := List.mem_iff_getElem.mp hmemLj
      have hsorted : List.Sorted bhPairLe (bhSorted ps) :=
        List.sorted_insertionSort (bhPairLe (α := ℚ)) ps.enum
      have hpw := List.pairwise_iff_getElem.mp hsorted
      have htitj : ti < tj := by
        rcases lt_trichotomy ti tj with h | h | h
        · exact h
        · exfalso
          have h1 : (bhSorted ps)[ti]? = some (i, some pi) := by
            rw [List.getElem?_eq_getElem hti, htie]
          have h2 : (bhSorted ps)[tj]? = some (j, some pj) := by
            rw [List.getElem?_eq_getElem htj, htje]
          rw [h, h2] at h1
          injection h1 with h4
          injection h4 with h5 h6
          injection h6 with h7
          rw [h7] at hlt
          exact lt_irrefl _ hlt
        · exfalso
          have hrel2 := hpw tj ti htj hti h
          rw [htie, htje] at hrel2
          simp only [bhPairLe, optKeyLe] at hrel2
          exact absurd hlt (not_lt.mpr hrel2)
      -- positions in the reversed list / walk output
      have hasg_pw := bhWalk_pairwise ps.length
        (1 : ℚ) 1 (bhSorted ps).reverse
      have hqi2 : (i, some qi) ∈ bhWalk ps.length 1 1 (bhSorted ps).reverse := by
        rw [hq i hi] at hqi
        apply assocGet_mem
        cases hcase : assocGet (bhWalk ps.length 1 1 (bhSorted ps).reverse) i with
        | none => rw [hcase] at hqi; simp at hqi
        | some o => rw [hcase] at hqi; simp at hqi; rw [hqi]
      have hqj2 : (j, some qj) ∈ bhWalk ps.length 1 1 (bhSorted ps).reverse := by
        rw [hq j hj] at hqj
        apply assocGet_mem
        cases hcase : assocGet (bhWalk ps.length 1 1 (bhSorted ps).reverse) j with
        | none => rw [hcase] at hqj; simp at hqj
        | some o => rw [hcase] at hqj; simp at hqj; rw [hqj]
      obtain ⟨ui, hui, huie⟩ := List.mem_iff_getElem.mp hqi2
      obtain ⟨uj, huj, huje⟩ := List.mem_iff_getElem.mp hqj2
      -- translate the fst alignment into positionwise equalities
      have hfstq : ∀ u : ℕ, u < ps.length →
          ((bhWalk ps.length 1 1 (bhSorted ps).reverse)[u]?.map Prod.fst) =
          ((bhSorted ps)[ps.length - 1 - u]?.map Prod.fst) := by
        intro u hu
        have h0 := congrArg (fun l => l[u]?) hfst
        simp only [List.getElem?_map] at h0
        rw [List.getElem?_reverse (by rw [List.length_map, hLlen]; exact hu)]
          at h0
        simp only [List.getElem?_map, List.length_map, hLlen] at h0
        exact h0
      have hLmap_nodup : ((bhSorted ps).map Prod.fst).Nodup := by
        have h0 := hfst_nodup
        rw [hfst, List.nodup_reverse] at h0
        exact h0
      have hposi : ps.length - 1 - ui = ti := by
        have hqiq : (bhWalk ps.length 1 1 (bhSorted ps).reverse)[ui]? =
            some (i, some qi) := by
          rw [List.getElem?_eq_getElem hui, huie]
        have h1 : ((bhSorted ps).map Prod.fst)[ps.length - 1 - ui]? =
            some i := by
          rw [List.getElem?_map]
          rw [← hfstq ui (by rw [← hasglen]; exact hui), hqiq]
          rfl
        have h2 : ((bhSorted ps).map Prod.fst)[ti]? = some i := by
          rw [List.getElem?_map, List.getElem?_eq_getElem hti, htie]
          rfl
        obtain ⟨hb1, he1⟩ := List.getElem?_eq_some_iff.mp h1
        obtain ⟨hb2, he2⟩ := List.getElem?_eq_some_iff.mp h2
        have heq : ((bhSorted ps).map Prod.fst)[ps.length - 1 - ui] =
            ((bhSorted ps).map Prod.fst)[ti] := by rw [he1, he2]
        exact hLmap_nodup.getElem_inj_iff.mp heq
      have hposj : ps.length - 1 - uj = tj := by
        have hqjq : (bhWalk ps.length 1 1 (bhSorted ps).reverse)[uj]? =
            some (j, some qj) := by
          rw [List.getElem?_eq_getElem huj, huje]
        have h1 : ((bhSorted ps).map Prod.fst)[ps.length - 1 - uj]? =
            some j := by
          rw [List.getElem?_map]
          rw [← hfstq uj (by rw [← hasglen]; exact huj), hqjq]
          rfl
        have h2 : ((bhSorted ps).map Prod.fst)[tj]? = some j := by
          rw [List.getElem?_map, List.getElem?_eq_getElem htj, htje]
          rfl
        obtain ⟨hb1, he1⟩ := List.getElem?_eq_some_iff.mp h1
        obtain ⟨hb2, he2⟩ := List.getElem?_eq_some_iff.mp h2
        have heq : ((bhSorted ps).map Prod.fst)[ps.length - 1 - uj] =
            ((bhSorted ps).map Prod.fst)[tj] := by rw [he1, he2]
        exact hLmap_nodup.getElem_inj_iff.mp heq
      have hujui : uj < ui := by
        rw [hLlen] at hti htj
        rw [hasglen] at hui huj
        omega
      have hrel := List.pairwise_iff_getElem.mp hasg_pw uj ui huj hui hujui
      rw [huje, huie] at hrel
      exact hrel qj qi rfl rfl

/-- Witness for C5 at the concrete input `[some 0, some 1]`: one q-value
per input, and the q-values are ordered like the p-values. -/
theorem benjamini_hochberg_spec_witness :
    (benjamini_hochberg [some (0 : ℚ), some 1]).length =
      ([some (0 : ℚ), some 1]).length ∧ (0 : ℚ) ≤ 1 := by
  have hr : ∀ p ∈ [some (0 : ℚ), some 1], ∀ x : ℚ,
      p = some x → 0 ≤ x ∧ x ≤ 1 := by
    intro p hp x hx
    rcases List.mem_cons.mp hp with rfl | hp2
    · injection hx with h
      rw [← h]
      norm_num
    · rcases List.mem_cons.mp hp2 with rfl | hp3
      · injection hx with h
        rw [← h]
        norm_num
      · simp at hp3
  exact ⟨(benjamini_hochberg_spec [some 0, some 1] hr).1,
    (benjamini_hochberg_spec [some 0, some 1] hr).2.2.2 (by simp) 0 1
      (by norm_num) (by norm_num) 0 1 0 1 rfl rfl (by norm_num)
      (by rw [bh_eval_example]; rfl) (by rw [bh_eval_example]; rfl)⟩

/-! ### Correlation cohort handling (C2) -/

lemma filterMap_snd_eq_nil {γ : Type} :
    ∀ (m : List (String × Option γ)), (∀ p ∈ m, p.2 = none) →
      m.filterMap Prod.snd = [] := by
  intro m
  induction m with
  | nil => intro _; rfl
  | cons p l ih =>
    intro h
    rw [List.filterMap_cons, h p (List.mem_cons_self p l)]
    exact ih (fun q hq => h q (List.mem_cons_of_mem p hq))

/-- C2: REFUTED as stated.  `compute_gene_pair_correlations` silently
drops every sample whose illness key is `None` (correlation.py lines
102–103 `continue`), so with no cohort metadata at all the function
returns no records — there is no pooled "no cohort" group, and the
two-gene/two-sample scenario yields zero records rather than one record
with `n_samples = 2` and a null q-value. -/
theorem compute_drops_uncohorted_samples (cdf : ℝ → ℝ)
    (gene_expression_by_sample : List (ℕ × List (String × ℝ)))
    (sample_illness_map : List (String × Option ℕ))
    (study_key min_samples : ℕ) (computed_at : String)
    (h : ∀ p ∈ sample_illness_map, p.2 = none) :
    compute_gene_pair_correlations cdf gene_expression_by_sample
      sample_illness_map study_key computed_at min_samples = [] := by
  have hfm := filterMap_snd_eq_nil sample_illness_map h
  simp [compute_gene_pair_correlations, hfm, dedupFirst]

/-- Witness for C2 at the two-gene / two-sample scenario of
tests/test_correlation.py (`sample_illness_map` all `None`). -/
theorem compute_drops_uncohorted_samples_witness :
    (∀ p ∈ ([("S1", none), ("S2", none)] : List (String × Option ℕ)),
      p.2 = none) ∧
    compute_gene_pair_correlations (fun x => x)
      [(1, [("S1", (1 : ℝ)), ("S2", 2)]), (2, [("S1", 3), ("S2", 4)])]
      [("S1", none), ("S2", none)] 7 "t" 3 = [] :=
  ⟨by simp, compute_drops_uncohorted_samples (fun x => x)
    [(1, [("S1", (1 : ℝ)), ("S2", 2)]), (2, [("S1", 3), ("S2", 4)])]
    [("S1", none), ("S2", none)] 7 3 "t" (by simp)⟩

/-! ### Structural lemmas for the correlation pipeline (C6, C7) -/

lemma benjamini_hochberg_length {α : Type} [LinearOrderedField α]
    [DecidableRel ((· ≤ ·) : α → α → Prop)] (ps : List (Option α)) :
    (benjamini_hochberg ps).length = ps.length := by
  by_cases h : ps = []
  · subst h; rfl
  · simp only [benjamini_hochberg, if_neg h, List.length_map,
      List.length_range]

lemma pairsOf_mem {β : Type} :
    ∀ (l : List β) (p : β × β), p ∈ pairsOf l → p.1 ∈ l ∧ p.2 ∈ l := by
  intro l
  induction l with
  | nil => intro p hp; simp [pairsOf] at hp
  | cons x xs ih =>
    intro p hp
    simp only [pairsOf, List.mem_append] at hp
    rcases hp with hp | hp
    · rcases List.mem_map.mp hp with ⟨y, hy, hyp⟩
      rw [← hyp]
      exact ⟨List.mem_cons_self x xs, List.mem_cons_of_mem x hy⟩
    · have := ih p hp
      exact ⟨List.mem_cons_of_mem x this.1, List.mem_cons_of_mem x this.2⟩

lemma pairsOf_rel {β : Type} (R : β → β → Prop) :
    ∀ (l : List β), l.Pairwise R → ∀ p ∈ pairsOf l, R p.1 p.2 := by
  intro l
  induction l with
  | nil => intro _ p hp; simp [pairsOf] at hp
  | cons x xs ih =>
    intro hl p hp
    rw [List.pairwise_cons] at hl
    simp only [pairsOf, List.mem_append] at hp
    rcases hp with hp | hp
    · rcases List.mem_map.mp hp with ⟨y, hy, hyp⟩
      rw [← hyp]
      exact hl.1 y hy
    · exact ih hl.2 p hp

lemma pairsOf_nodup {β : Type} [DecidableEq β] :
    ∀ (l : List β), l.Nodup → (pairsOf l).Nodup := by
  intro l
  induction l with
  | nil => intro _; simp [pairsOf]
  | cons x xs ih =>
    intro hl
    rw [List.nodup_cons] at hl
    simp only [pairsOf]
    refine List.Nodup.append ?_ (ih hl.2) ?_
    · refine List.Nodup.map ?_ hl.2
      intro a b hab
      injection hab with h1 h2
    · intro p hp1 hp2
      rcases List.mem_map.mp hp1 with ⟨y, hy, hyp⟩
      have hfst : p.1 ∈ xs := (pairsOf_mem xs p hp2).1
      rw [← hyp] at hfst
      exact hl.1 hfst

lemma insertionSort_pairwise_lt (l : List ℕ) (h : l.Nodup) :
    (List.insertionSort (· ≤ ·) l).Pairwise (· < ·) := by
  have hs : (List.insertionSort (· ≤ ·) l).Sorted (· ≤ ·) :=
    List.sorted_insertionSort _ l
  have hn : (List.insertionSort (· ≤ ·) l).Nodup :=
    (List.perm_insertionSort (· ≤ ·) l).symm.nodup h
  exact (List.Pairwise.and hs hn).imp (fun hab => lt_of_le_of_ne hab.1 hab.2)

lemma dedupFirst_subset_aux :
    ∀ (n : ℕ) (l : List ℕ), l.length ≤ n → ∀ x ∈ dedupFirst l, x ∈ l := by
  intro n
  induction n with
  | zero =>
    intro l hl x hx
    cases l with
    | nil => simp [dedupFirst] at hx
    | cons a as => simp at hl
  | succ n ih =>
    intro l hl x hx
    cases l with
    | nil => simp [dedupFirst] at hx
    | cons a as =>
      simp only [dedupFirst, List.mem_cons] at hx
      rcases hx with rfl | hx
      · exact List.mem_cons_self _ _
      · have hlen : (as.filter (fun y => y ≠ a)).length ≤ n := by
          have := List.length_filter_le (fun y => decide (y ≠ a)) as
          simp only [List.length_cons] at hl
          omega
        have hmem := ih (as.filter (fun y => y ≠ a)) hlen x hx
        exact List.mem_cons_of_mem a (List.mem_of_mem_filter hmem)

lemma dedupFirst_nodup_aux :
    ∀ (n : ℕ) (l : List ℕ), l.length ≤ n → (dedupFirst l).Nodup := by
  intro n
  induction n with
  | zero =>
    intro l hl
    cases l with
    | nil => simp [dedupFirst]
    | cons a as => simp at hl
  | succ n ih =>
    intro l hl
    cases l with
    | nil => simp [dedupFirst]
    | cons a as =>
      simp only [dedupFirst, List.nodup_cons]
      have hlen : (as.filter (fun y => y ≠ a)).length ≤ n := by
        have := List.length_filter_le (fun y => decide (y ≠ a)) as
        simp only [List.length_cons] at hl
        omega
      refine ⟨?_, ih _ hlen⟩
      intro hmem
      have hsub := dedupFirst_subset_aux n (as.filter (fun y => y ≠ a))
        hlen a hmem
      have hne := List.of_mem_filter hsub
      simp at hne

lemma dedupFirst_nodup (l : List ℕ) : (dedupFirst l).Nodup :=
  dedupFirst_nodup_aux l.length l le_rfl

lemma map_filterMap_sublist {β γ : Type} (f : β → Option γ) (k : γ → β)
    (hk : ∀ a b, f a = some b → k b = a) :
    ∀ (l : List β), ((l.filterMap f).map k).Sublist l := by
  intro l
  induction l with
  | nil => simp
  | cons a as ih =>
    rw [List.filterMap_cons]
    cases hfa : f a with
    | none => exact ih.cons a
    | some b =>
      rw [List.map_cons, hk a b hfa]
      exact ih.cons₂ a

lemma spearmanr_eq_some (cdf : ℝ → ℝ) (a b : List ℝ) (r p : ℝ)
    (h : spearmanr cdf a b = (some r, some p)) : -1 ≤ r ∧ r ≤ 1 := by
  cases hpe : pearson (rankdata a) (rankdata b) with
  | none => simp [spearmanr, hpe] at h
  | some rho =>
    simp only [spearmanr, hpe] at h
    by_cases h3 : a.length < 3
    · rw [if_pos h3] at h
      simp at h
    · rw [if_neg h3] at h
      by_cases habs : 1 ≤ |rho|
      · rw [if_pos habs, Prod.mk.injEq] at h
        obtain ⟨h1, h2⟩ := h
        injection h1 with h1
        subst h1
        exact ⟨le_max_right _ _, max_le (min_le_right rho 1) (by norm_num)⟩
      · rw [if_neg habs, Prod.mk.injEq] at h
        obtain ⟨h1, h2⟩ := h
        injection h1 with h1
        subst h1
        push_neg at habs
        rw [abs_lt] at habs
        exact ⟨le_of_lt habs.1, le_of_lt habs.2⟩

lemma pairStatFor_eq_some (cdf : ℝ → ℝ)
    (gE : List (ℕ × List (String × ℝ))) (samples : List String)
    (ms : ℕ) (g : ℕ × ℕ) (s : PairStat)
    (h : pairStatFor cdf gE samples ms g = some s) :
    s.gene_a_key = g.1 ∧ s.gene_b_key = g.2 ∧
    s.n_samples = (sharedSamples gE samples g.1 g.2).length ∧
    ms ≤ (sharedSamples gE samples g.1 g.2).length ∧
    2 ≤ (seriesFor gE (sharedSamples gE samples g.1 g.2) g.1).dedup.length ∧
    2 ≤ (seriesFor gE (sharedSamples gE samples g.1 g.2) g.2).dedup.length ∧
    spearmanr cdf (seriesFor gE (sharedSamples gE samples g.1 g.2) g.1)
      (seriesFor gE (sharedSamples gE samples g.1 g.2) g.2) =
      (some s.rho, some s.p_value) := by
  simp only [pairStatFor] at h
  by_cases h1 : (sharedSamples gE samples g.1 g.2).length < ms
  · rw [if_pos h1] at h; simp at h
  · rw [if_neg h1] at h
    by_cases h2 :
        (seriesFor gE (sharedSamples gE samples g.1 g.2) g.1).dedup.length
          < 2 ∨
        (seriesFor gE (sharedSamples gE samples g.1 g.2) g.2).dedup.length
          < 2
    · rw [if_pos h2] at h; simp at h
    · rw [if_neg h2] at h
      push_neg at h2
      cases hsp : spearmanr cdf
          (seriesFor gE (sharedSamples gE samples g.1 g.2) g.1)
          (seriesFor gE (sharedSamples gE samples g.1 g.2) g.2) with
      | mk orho op =>
        rw [hsp] at h
        cases orho with
        | none => simp at h
        | some rho =>
          cases op with
          | none => simp at h
          | some pv =>
            dsimp only at h
            injection h with h
            subst h
            push_neg at h1
            exact ⟨rfl, rfl, rfl, h1, h2.1, h2.2, rfl⟩

lemma cohortRecords_mem (cdf : ℝ → ℝ) (gE : List (ℕ × List (String × ℝ)))
    (sim : List (String × Option ℕ)) (sk ms k : ℕ) (ca : String)
    (r : FactGenePairCorrelation)
    (h : r ∈ cohortRecords cdf gE sim sk ca ms k) :
    r.illness_key = k ∧
    ∃ g ∈ pairsOf (List.insertionSort (· ≤ ·) (gE.map Prod.fst)),
      ∃ s : PairStat,
        pairStatFor cdf gE (cohortSamples sim k) ms g = some s ∧
        r.gene_a_key = s.gene_a_key ∧ r.gene_b_key = s.gene_b_key ∧
        r.rho_spearman = s.rho := by
  simp only [cohortRecords] at h
  by_cases h1 : (cohortSamples sim k).length < ms
  · rw [if_pos h1] at h; simp at h
  · rw [if_neg h1] at h
    by_cases h2 : ((pairsOf (List.insertionSort (· ≤ ·)
        (gE.map Prod.fst))).filterMap
        (pairStatFor cdf gE (cohortSamples sim k) ms)).isEmpty = true
    · rw [if_pos h2] at h; simp at h
    · rw [if_neg h2] at h
      rcases List.mem_map.mp h with ⟨⟨e1, e2⟩, he, her⟩
      have hz := List.of_mem_zip he
      rcases List.mem_filterMap.mp hz.1 with ⟨g, hg, hgs⟩
      subst her
      exact ⟨rfl, g, hg, e1, hgs, rfl, rfl, rfl⟩

/-! ### Concrete evaluation of the correlation pipeline on the
two-identical-genes fixture -/

lemma rankdata_123 : rankdata [(1 : ℝ), 2, 3] = [1, 2, 3] := by
  have henum : ([(1 : ℝ), 2, 3]).enum = [(0, 1), (1, 2), (2, 3)] := by
    simp [List.enum, List.enumFrom]
  have hassign : assignAvgRanks 0 [((0 : ℕ), (1 : ℝ)), (1, 2), (2, 3)] =
      [(0, 1), (1, 2), (2, 3)] := by
    norm_num [assignAvgRanks, List.takeWhile_cons, List.range_succ]
  norm_num [rankdata, henum, List.insertionSort, List.orderedInsert,
    rankPairLe, hassign, assocGet, List.find?, List.range_succ]

lemma pearson_123 : pearson [(1 : ℝ), 2, 3] [(1 : ℝ), 2, 3] = some 1 := by
  have hsq : Real.sqrt 2 * Real.sqrt 2 = 2 :=
    Real.mul_self_sqrt (by norm_num)
  norm_num [pearson, List.zip, List.zipWith, hsq]

lemma spearmanr_example (cdf : ℝ → ℝ) :
    spearmanr cdf [(1 : ℝ), 2, 3] [(1 : ℝ), 2, 3] = (some 1, some 0) := by
  norm_num [spearmanr, rankdata_123, pearson_123, max_eq_left, min_self]

lemma pairStatFor_example (cdf : ℝ → ℝ) :
    pairStatFor cdf exampleGeneExpression ["S1", "S2", "S3"] 3 (1, 2) =
      some ⟨1, 2, 3, 1, 0⟩ := by
  have hshared : sharedSamples exampleGeneExpression ["S1", "S2", "S3"] 1 2 =
      ["S1", "S2", "S3"] := by
    simp [sharedSamples, exampleGeneExpression, assocGet]
  have hseries1 : seriesFor exampleGeneExpression ["S1", "S2", "S3"] 1 =
      [1, 2, 3] := by
    simp [seriesFor, exampleGeneExpression, assocGet]
  have hseries2 : seriesFor exampleGeneExpression ["S1", "S2", "S3"] 2 =
      [1, 2, 3] := by
    simp [seriesFor, exampleGeneExpression, assocGet]
  have hdedup : ([1, 2, 3] : List ℝ).dedup = [1, 2, 3] := by
    norm_num [List.dedup_cons_of_not_mem, List.mem_dedup]
  norm_num [pairStatFor, hshared, hseries1, hseries2, hdedup,
    spearmanr_example]

lemma cohortRecords_example (cdf : ℝ → ℝ) (sk : ℕ) (ca : String) :
    cohortRecords cdf exampleGeneExpression exampleIllnessMap sk ca 3 10 =
      [⟨1, 2, 10, 1, 0, some 0, 3, ca, sk⟩] := by
  have hsamples : cohortSamples exampleIllnessMap 10 = ["S1", "S2", "S3"] := by
    simp [cohortSamples, exampleIllnessMap]
  have hkeys : List.insertionSort (· ≤ ·)
      (exampleGeneExpression.map Prod.fst) = [1, 2] := by
    simp [exampleGeneExpression, List.insertionSort, List.orderedInsert]
  have hbh : benjamini_hochberg [some (0 : ℝ)] = [some 0] := by
    norm_num [benjamini_hochberg, bhSorted, bhWalk, assocGet, List.enum,
      List.enumFrom, List.insertionSort, List.orderedInsert, optKeyLe,
      bhPairLe, List.range, List.range.loop, min_def]
  norm_num [cohortRecords, hsamples, hkeys, pairsOf, pairStatFor_example,
    List.filterMap_cons, hbh]

lemma compute_eval_example (cdf : ℝ → ℝ) (sk : ℕ) (ca : String) :
    compute_gene_pair_correlations cdf exampleGeneExpression
      exampleIllnessMap sk ca 3 = [⟨1, 2, 10, 1, 0, some 0, 3, ca, sk⟩] := by
  have hco : dedupFirst (exampleIllnessMap.filterMap Prod.snd) = [10] := by
    simp [exampleIllnessMap, dedupFirst]
  simp [compute_gene_pair_correlations, hco, cohortRecords_example]

lemma cohortRecords_map_key_nodup (cdf : ℝ → ℝ)
    (gE : List (ℕ × List (String × ℝ))) (sim : List (String × Option ℕ))
    (sk ms k : ℕ) (ca : String) (h : (gE.map Prod.fst).Nodup) :
    ((cohortRecords cdf gE sim sk ca ms k).map
      (fun r => (r.gene_a_key, r.gene_b_key, r.illness_key))).Nodup := by
  have hsortnd : (List.insertionSort (· ≤ ·) (gE.map Prod.fst)).Nodup :=
    (List.perm_insertionSort (· ≤ ·) (gE.map Prod.fst)).symm.nodup h
  have hpairs := pairsOf_nodup _ hsortnd
  have hkey : ∀ (g : ℕ × ℕ) (s : PairStat),
      pairStatFor cdf gE (cohortSamples sim k) ms g = some s →
      (s.gene_a_key, s.gene_b_key) = g := by
    intro g s hgs
    obtain ⟨hga, hgb, _⟩ := pairStatFor_eq_some _ _ _ _ _ _ hgs
    rw [hga, hgb]
  have hkeynd :=
    (map_filterMap_sublist (pairStatFor cdf gE (cohortSamples sim k) ms)
      (fun s => (s.gene_a_key, s.gene_b_key)) hkey
      (pairsOf (List.insertionSort (· ≤ ·) (gE.map Prod.fst)))).nodup hpairs
  simp only [cohortRecords]
  by_cases h1 : (cohortSamples sim k).length < ms
  · rw [if_pos h1]; simp
  · rw [if_neg h1]
    set ps := (pairsOf (List.insertionSort (· ≤ ·)
      (gE.map Prod.fst))).filterMap
      (pairStatFor cdf gE (cohortSamples sim k) ms) with hps
    set q := benjamini_hochberg (ps.map (fun e => some e.p_value)) with hq
    by_cases h2 : ps.isEmpty = true
    · rw [if_pos h2]; simp
    · rw [if_neg h2]
      rw [List.map_map]
      have hlen : ps.length ≤ q.length := by
        rw [hq, benjamini_hochberg_length, List.length_map]
      have hfst : (ps.zip q).map Prod.fst = ps :=
        List.map_fst_zip ps q hlen
      have hnd2 : (ps.map ((fun p : ℕ × ℕ => (p.1, p.2, k)) ∘
          (fun s : PairStat => (s.gene_a_key, s.gene_b_key)))).Nodup := by
        rw [← List.map_map]
        refine List.Nodup.map ?_ hkeynd
        intro p1 p2 hpq
        simp only [Prod.mk.injEq] at hpq
        exact Prod.ext hpq.1 hpq.2.1
      have hzip : (ps.zip q).map (((fun p : ℕ × ℕ => (p.1, p.2, k)) ∘
          (fun s : PairStat => (s.gene_a_key, s.gene_b_key))) ∘ Prod.fst) =
          ps.map ((fun p : ℕ × ℕ => (p.1, p.2, k)) ∘
          (fun s : PairStat => (s.gene_a_key, s.gene_b_key))) := by
        rw [← List.map_map, hfst]
      show ((ps.zip q).map (((fun p : ℕ × ℕ => (p.1, p.2, k)) ∘
        (fun s : PairStat => (s.gene_a_key, s.gene_b_key))) ∘
        Prod.fst)).Nodup
      rw [hzip]
      exact hnd2

/-- C6: every emitted correlation record has `gene_a_key < gene_b_key`
(the pairs come from `itertools.combinations` over the sorted gene keys,
correlation.py line 116), and — per study and run — every
`(gene_a_key, gene_b_key, illness_key)` triple appears at most once, so
the two genes are distinct and each unordered pair occurs at most once
per cohort. -/
theorem correlation_pair_ordering (cdf : ℝ → ℝ)
    (gene_expression_by_sample : List (ℕ × List (String × ℝ)))
    (sample_illness_map : List (String × Option ℕ))
    (study_key min_samples : ℕ) (computed_at : String)
    (h : (gene_expression_by_sample.map Prod.fst).Nodup) :
    (∀ r ∈ compute_gene_pair_correlations cdf gene_expression_by_sample
        sample_illness_map study_key computed_at min_samples,
      r.gene_a_key < r.gene_b_key) ∧
    ((compute_gene_pair_correlations cdf gene_expression_by_sample
        sample_illness_map study_key computed_at min_samples).map
      (fun r => (r.gene_a_key, r.gene_b_key, r.illness_key))).Nodup := by
  constructor
  · intro r hr
    simp only [compute_gene_pair_correlations] at hr
    rcases List.mem_flatMap.mp hr with ⟨k, hk, hrk⟩
    obtain ⟨hik, g, hg, s, hgs, ha, hb, hrho⟩ :=
      cohortRecords_mem _ _ _ _ _ _ _ _ hrk
    obtain ⟨hga, hgb, _⟩ := pairStatFor_eq_some _ _ _ _ _ _ hgs
    have hpw := insertionSort_pairwise_lt _ h
    have hlt := pairsOf_rel (· < ·) _ hpw g hg
    rw [ha, hb, hga, hgb]
    exact hlt
  · simp only [compute_gene_pair_correlations]
    rw [List.map_flatMap, List.nodup_flatMap]
    constructor
    · intro k hk
      exact cohortRecords_map_key_nodup _ _ _ _ _ _ _ h
    · refine (dedupFirst_nodup _).imp ?_
      intro a b hab x hxa hxb
      rcases List.mem_map.mp hxa with ⟨r, hr, hxr⟩
      rcases List.mem_map.mp hxb with ⟨r2, hr2, hxr2⟩
      have h1 := (cohortRecords_mem _ _ _ _ _ _ _ _ hr).1
      have h2 := (cohortRecords_mem _ _ _ _ _ _ _ _ hr2).1
      have e1 : x.2.2 = a := by rw [← hxr]; exact h1
      have e2 : x.2.2 = b := by rw [← hxr2]; exact h2
      exact hab (e1.symm.trans e2)

/-- Witness for C6: the two-identical-genes fixture satisfies the
distinct-keys hypothesis, produces a non-empty record list, and every
record is ordered. -/
theorem correlation_pair_ordering_witness :
    (exampleGeneExpression.map Prod.fst).Nodup ∧
    compute_gene_pair_correlations (fun x => x) exampleGeneExpression
      exampleIllnessMap 5 "t" 3 ≠ [] ∧
    (∀ r ∈ compute_gene_pair_correlations (fun x => x) exampleGeneExpression
        exampleIllnessMap 5 "t" 3, r.gene_a_key < r.gene_b_key) := by
  have hnd : (exampleGeneExpression.map Prod.fst).Nodup := by
    simp [exampleGeneExpression]
  refine ⟨hnd, ?_, (correlation_pair_ordering (fun x => x)
    exampleGeneExpression exampleIllnessMap 5 3 "t" hnd).1⟩
  rw [compute_eval_example]
  simp

/-- C7: every emitted record has its Spearman rho in `[-1, 1]` (the
fallback clamps at `|rho| ≥ 1`, correlation.py line 56, and otherwise
`|rho| < 1`), and no record is emitted for a pair whose overlapping
series for either gene is constant — both series have at least two
distinct values over the shared cohort samples (lines 126–127). -/
theorem correlation_rho_bounds_and_nonconstant_series (cdf : ℝ → ℝ)
    (gene_expression_by_sample : List (ℕ × List (String × ℝ)))
    (sample_illness_map : List (String × Option ℕ))
    (study_key min_samples : ℕ) (computed_at : String) :
    ∀ r ∈ compute_gene_pair_correlations cdf gene_expression_by_sample
        sample_illness_map study_key computed_at min_samples,
      (-1 ≤ r.rho_spearman ∧ r.rho_spearman ≤ 1) ∧
      2 ≤ (seriesFor gene_expression_by_sample
        (sharedSamples gene_expression_by_sample
          (cohortSamples sample_illness_map r.illness_key)
          r.gene_a_key r.gene_b_key) r.gene_a_key).dedup.length ∧
      2 ≤ (seriesFor gene_expression_by_sample
        (sharedSamples gene_expression_by_sample
          (cohortSamples sample_illness_map r.illness_key)
          r.gene_a_key r.gene_b_key) r.gene_b_key).dedup.length := by
  intro r hr
  simp only [compute_gene_pair_correlations] at hr
  rcases List.mem_flatMap.mp hr with ⟨k, hk, hrk⟩
  obtain ⟨hik, g, hg, s, hgs, ha, hb, hrho⟩ :=
    cohortRecords_mem _ _ _ _ _ _ _ _ hrk
  obtain ⟨hga, hgb, hn, hms, hd1, hd2, hsp⟩ :=
    pairStatFor_eq_some _ _ _ _ _ _ hgs
  have hbounds := spearmanr_eq_some _ _ _ _ _ hsp
  refine ⟨?_, ?_⟩
  · rw [hrho]
    exact hbounds
  · rw [hik, ha, hb, hga, hgb]
    exact ⟨hd1, hd2⟩

/-- Witness for C7: the single record of the two-identical-genes fixture
has `rho = 1 ∈ [-1, 1]` and both of its overlapping series take at least
two distinct values. -/
theorem correlation_rho_bounds_and_nonconstant_series_witness :
    ((-1 : ℝ) ≤ (1 : ℝ) ∧ (1 : ℝ) ≤ 1) ∧
    2 ≤ (seriesFor exampleGeneExpression
      (sharedSamples exampleGeneExpression
        (cohortSamples exampleIllnessMap 10) 1 2) 1).dedup.length ∧
    2 ≤ (seriesFor exampleGeneExpression
      (sharedSamples exampleGeneExpression
        (cohortSamples exampleIllnessMap 10) 1 2) 2).dedup.length :=
  correlation_rho_bounds_and_nonconstant_series (fun x => x)
    exampleGeneExpression exampleIllnessMap 5 3 "t"
    ⟨1, 2, 10, 1, 0, some 0, 3, "t", 5⟩
    (by rw [compute_eval_example]; exact List.mem_singleton_self _)

/-- On the worked fixture the computation emits exactly one record:
genes `1 < 2`, cohort `10`, `rho = 1` (clamped path, `p = 0`),
`q = 0`, over the three shared samples. -/
theorem sanity_compute_example :
    compute_gene_pair_correlations (fun x => x) exampleGeneExpression
      exampleIllnessMap 5 "t" 3 = [⟨1, 2, 10, 1, 0, some 0, 3, "t", 5⟩] :=
  compute_eval_example (fun x => x) 5 "t"

/-! ### Batch-loader retry semantics (C8) -/

lemma tenacityGo_success {β : Type} (action : ℕ → Except DbError β) :
    ∀ (left start k : ℕ) (b : β), start ≤ k → k < start + left →
      action k = Except.ok b →
      (∀ j, start ≤ j → j < k → ∃ e, action j = Except.error e) →
      tenacityGo action start left = .ok k b := by
  intro left
  induction left with
  | zero =>
    intro start k b h1 h2 _ hfail
    omega
  | succ m ih =>
    intro start k b h1 h2 hk hfail
    by_cases hsk : start = k
    · subst hsk
      simp [tenacityGo, hk]
    · have hstart : start < k := lt_of_le_of_ne h1 hsk
      obtain ⟨e, he⟩ := hfail start le_rfl hstart
      have hm : m ≠ 0 := by omega
      simp only [tenacityGo, he]
      rw [if_neg hm]
      exact ih (start + 1) k b (by omega) (by omega) hk
        (fun j hj1 hj2 => hfail j (by omega) hj2)

lemma tenacityGo_exhaust {β : Type} (action : ℕ → Except DbError β) :
    ∀ (left start : ℕ), 1 ≤ left →
      (∀ j, start ≤ j → j < start + left → ∃ e, action j = Except.error e) →
      tenacityGo action start left = .runtimeError (start + left - 1) := by
  intro left
  induction left with
  | zero => intro start h; omega
  | succ m ih =>
    intro start hm hfail
    obtain ⟨e, he⟩ := hfail start le_rfl (by omega)
    by_cases hm0 : m = 0
    · subst hm0
      simp [tenacityGo, he]
    · simp only [tenacityGo, he]
      rw [if_neg hm0]
      have hrec := ih (start + 1) (by omega)
        (fun j hj1 hj2 => hfail j (by omega) (by omega))
      rw [hrec]
      congr 1
      omega

lemma backoffWait_eq (k : ℕ) :
    backoffWait k = min 8 (2 ^ (k - 1)) := by
  unfold backoffWait
  exact max_eq_right (le_min (by norm_num) Nat.one_le_two_pow)

/-- C8 counterexample to "non-transient errors are never retried": a
constraint violation on every attempt is retried to exhaustion — three
attempts run, not one — because `@retry` is used with `tenacity`'s
default retry predicate, which retries on every `Exception`. -/
theorem loader_retries_nontransient_errors :
    upsert_study_metadata 3 (fun _ => some DbError.constraintViolation)
      [] "GSE1" "p" = .runtimeError 3 ∧ (3 : ℕ) ≠ 1 := by
  exact ⟨rfl, by decide⟩

/-- C8 (amended): each loader write — the study-metadata upsert AND the
expression batch insert — runs its whole statement sequence as one
transaction per attempt on the original table; attempt `k` succeeds
(when attempts `1..k-1` all failed, with ANY error kind — the default
tenacity predicate retries transient and non-transient exceptions
alike) and returns the transactional result applied exactly once; if
all `n` configured attempts fail, the `RetryError` surfaces as the
`RuntimeError` outcome after exactly `n` attempts; an empty expression
batch returns 0 immediately without running any attempt; the wait
between attempts doubles from 1 second and is capped at 8
(`wait_exponential(multiplier=1, min=1, max=8)`). -/
theorem loader_retry_semantics (n : ℕ) (hn : 1 ≤ n)
    (attemptFails : ℕ → Option DbError)
    (table : List (String × String)) (study_id payload : String)
    (facts : List FactExpressionInsert) (run_id : String)
    (batch_id : ℕ) (rows : List (String × ℚ)) :
    (∀ k, 1 ≤ k → k ≤ n → attemptFails k = none →
      (∀ j, 1 ≤ j → j < k → attemptFails j ≠ none) →
      upsert_study_metadata n attemptFails table study_id payload =
        .ok k (upsert_study_metadata_txn table study_id payload) ∧
      (rows ≠ [] →
        insert_expression_batch n attemptFails facts run_id study_id
          batch_id rows =
        .ok k (insert_expression_batch_txn facts run_id study_id
          batch_id rows))) ∧
    ((∀ k, 1 ≤ k → k ≤ n → attemptFails k ≠ none) →
      upsert_study_metadata n attemptFails table study_id payload =
        .runtimeError n ∧
      (rows ≠ [] →
        insert_expression_batch n attemptFails facts run_id study_id
          batch_id rows = .runtimeError n)) ∧
    (rows = [] →
      insert_expression_batch n attemptFails facts run_id study_id
        batch_id rows = .ok 0 (facts, 0)) ∧
    (∀ k, 1 ≤ k → backoffWait (k + 1) = min 8 (2 * backoffWait k)) ∧
    (∀ k, 1 ≤ backoffWait k ∧ backoffWait k ≤ 8) := by
  refine ⟨?_, ?_, ?_, ?_, ?_⟩
  · intro k hk1 hkn hnone hfail
    have hjfail : ∀ j, 1 ≤ j → j < k → ∃ e, attemptFails j = some e := by
      intro j hj1 hj2
      rcases ha : attemptFails j with _ | e
      · exact absurd ha (hfail j hj1 hj2)
      · exact ⟨e, rfl⟩
    constructor
    · unfold upsert_study_metadata tenacityRetry
      refine tenacityGo_success _ n 1 k _ hk1 (by omega) (by rw [hnone]) ?_
      intro j hj1 hj2
      obtain ⟨e, ha⟩ := hjfail j hj1 hj2
      exact ⟨e, by simp [ha]⟩
    · intro hrows
      unfold insert_expression_batch tenacityRetry
      rw [if_neg (by simp [hrows])]
      refine tenacityGo_success _ n 1 k _ hk1 (by omega) (by rw [hnone]) ?_
      intro j hj1 hj2
      obtain ⟨e, ha⟩ := hjfail j hj1 hj2
      exact ⟨e, by simp [ha]⟩
  · intro hall
    have hjfail : ∀ j, 1 ≤ j → j < 1 + n → ∃ e, attemptFails j = some e := by
      intro j hj1 hj2
      rcases ha : attemptFails j with _ | e
      · exact absurd ha (hall j hj1 (by omega))
      · exact ⟨e, rfl⟩
    constructor
    · unfold upsert_study_metadata tenacityRetry
      have := tenacityGo_exhaust
        (fun k => match attemptFails k with
          | some e => Except.error e
          | none =>
            Except.ok (upsert_study_metadata_txn table study_id payload))
        n 1 hn ?_
      · rw [this]
        congr 1
        omega
      · intro j hj1 hj2
        obtain ⟨e, ha⟩ := hjfail j hj1 hj2
        exact ⟨e, by simp [ha]⟩
    · intro hrows
      unfold insert_expression_batch tenacityRetry
      rw [if_neg (by simp [hrows])]
      have := tenacityGo_exhaust
        (fun k => match attemptFails k with
          | some e => Except.error e
          | none =>
            Except.ok (insert_expression_batch_txn facts run_id study_id
              batch_id rows))
        n 1 hn ?_
      · rw [this]
        congr 1
        omega
      · intro j hj1 hj2
        obtain ⟨e, ha⟩ := hjfail j hj1 hj2
        exact ⟨e, by simp [ha]⟩
  · intro hrows
    subst hrows
    rfl
  · intro k hk
    rw [backoffWait_eq k, backoffWait_eq (k + 1)]
    have hpow : 2 ^ (k + 1 - 1) = 2 * 2 ^ (k - 1) := by
      rw [show k + 1 - 1 = (k - 1) + 1 by omega, pow_succ]
      ring
    rw [hpow]
    by_cases hc : 2 ^ (k - 1) ≤ 8
    · rw [min_eq_right hc]
    · push_neg at hc
      rw [min_eq_left (le_of_lt hc)]
      have h16 : 8 ≤ 2 * 2 ^ (k - 1) := by omega
      rw [min_eq_left h16]
      norm_num
  · intro k
    unfold backoffWait
    exact ⟨le_max_left _ _, max_le (by norm_num) (min_le_left _ _)⟩

/-- Witness for C8: with two configured attempts, a transient failure on
attempt 1 and success on attempt 2, both loader writes return their
transactional result on attempt 2. -/
theorem loader_retry_semantics_witness :
    (upsert_study_metadata 2
      (fun k => if k = 1 then some DbError.transient else none)
      [] "GSE1" "p" =
      .ok 2 (upsert_study_metadata_txn [] "GSE1" "p")) ∧
    (insert_expression_batch 2
      (fun k => if k = 1 then some DbError.transient else none)
      [] "r1" "GSE1" 0 [("ENSG1", 5)] =
      .ok 2 (insert_expression_batch_txn [] "r1" "GSE1" 0
        [("ENSG1", 5)])) := by
  have h := (loader_retry_semantics 2 (by norm_num)
    (fun k => if k = 1 then some DbError.transient else none)
    [] "GSE1" "p" [] "r1" 0 [("ENSG1", 5)]).1 2
    (by norm_num) (by norm_num) (by norm_num) ?_
  · exact ⟨h.1, h.2 (by simp)⟩
  · intro j hj1 hj2
    have hj : j = 1 := by omega
    subst hj
    simp

/-! ### Expression fact deduplication (C10) -/

lemma appendedFacts_mem (sampleKey geneKey : String → ℕ) (sk : ℕ)
    (existing : List (ℕ × ℕ)) (stream : List ExpressionRow)
    (f : FactExpressionRec)
    (h : f ∈ appendedFacts sampleKey geneKey sk existing stream) :
    (f.sample_key, f.gene_key) ∉ existing ∧ f.study_key = sk := by
  simp only [appendedFacts] at h
  rcases List.mem_filterMap.mp h with ⟨row, hrow, hf⟩
  by_cases hmem :
      (sampleKey row.sample_accession, geneKey row.gene_id) ∈ existing
  · rw [if_pos hmem] at hf
    cases hf
  · rw [if_neg hmem] at hf
    injection hf with hf
    subst hf
    exact ⟨hmem, rfl⟩

lemma appendedFacts_pairs_sublist (sampleKey geneKey : String → ℕ)
    (sk : ℕ) (existing : List (ℕ × ℕ)) :
    ∀ (stream : List ExpressionRow),
      ((appendedFacts sampleKey geneKey sk existing stream).map
        (fun f => (f.sample_key, f.gene_key))).Sublist
      (stream.map (fun row => (sampleKey row.sample_accession,
        geneKey row.gene_id))) := by
  intro stream
  induction stream with
  | nil => simp [appendedFacts]
  | cons row rest ih =>
    by_cases hmem :
        (sampleKey row.sample_accession, geneKey row.gene_id) ∈ existing
    · simp only [appendedFacts, List.filterMap_cons, if_pos hmem,
        List.map_cons]
      simp only [appendedFacts] at ih
      exact ih.cons _
    · simp only [appendedFacts, List.filterMap_cons, if_neg hmem,
        List.map_cons]
      simp only [appendedFacts] at ih
      exact ih.cons₂ _

/-- C10: during expression ingestion a fact is appended only when its
`(sample_key, gene_key)` is not in the preloaded `existing_facts` set
(pipeline.py lines 211 and 249–250), and — provided the persisted keys
and the distinct stream cells map to distinct key pairs — the union of
the persisted pairs and the appended pairs still has no duplicate
`(sample_key, gene_key)` for the study, so the unique
`(sample_key, gene_key, study_key)` constraint is preserved, including
on a resumed run whose stream re-yields already-committed cells (those
cells sit in `existing_facts` and are skipped). -/
theorem expression_fact_uniqueness (sampleKey geneKey : String → ℕ)
    (study_key : ℕ) (existing : List (ℕ × ℕ)) (stream : List ExpressionRow)
    (hex : existing.Nodup)
    (hstream : (stream.map (fun row => (sampleKey row.sample_accession,
      geneKey row.gene_id))).Nodup) :
    (∀ f ∈ appendedFacts sampleKey geneKey study_key existing stream,
      (f.sample_key, f.gene_key) ∉ existing ∧ f.study_key = study_key) ∧
    (existing ++ (appendedFacts sampleKey geneKey study_key existing
      stream).map (fun f => (f.sample_key, f.gene_key))).Nodup := by
  constructor
  · intro f hf
    exact appendedFacts_mem _ _ _ _ _ _ hf
  · refine List.Nodup.append hex
      ((appendedFacts_pairs_sublist _ _ _ _ stream).nodup hstream) ?_
    intro p hp1 hp2
    rcases List.mem_map.mp hp2 with ⟨f, hfmem, hfp⟩
    have hnot := (appendedFacts_mem _ _ _ _ _ _ hfmem).1
    have hfp2 : (f.sample_key, f.gene_key) = p := hfp
    rw [hfp2] at hnot
    exact hnot hp1

/-- Witness for C10: one already-persisted pair, a stream re-yielding
that cell plus one new cell — the re-yielded cell is skipped and the
union of pairs stays duplicate-free. -/
theorem expression_fact_uniqueness_witness :
    ([((1 : ℕ), (1 : ℕ))].Nodup) ∧
    (([⟨"G1", "S1", 5, 0⟩, ⟨"G2", "S1", 7, 0⟩] : List ExpressionRow).map
      (fun row => ((fun s => if s = "S1" then 1 else 2)
          row.sample_accession,
        (fun g => if g = "G1" then 1 else 2) row.gene_id))).Nodup ∧
    (∀ f ∈ appendedFacts (fun s => if s = "S1" then 1 else 2)
        (fun g => if g = "G1" then 1 else 2) 9 [(1, 1)]
        [⟨"G1", "S1", 5, 0⟩, ⟨"G2", "S1", 7, 0⟩],
      (f.sample_key, f.gene_key) ∉ [((1 : ℕ), (1 : ℕ))] ∧
        f.study_key = 9) ∧
    ([((1 : ℕ), (1 : ℕ))] ++ (appendedFacts
        (fun s => if s = "S1" then 1 else 2)
        (fun g => if g = "G1" then 1 else 2) 9 [(1, 1)]
        [⟨"G1", "S1", 5, 0⟩, ⟨"G2", "S1", 7, 0⟩]).map
      (fun f => (f.sample_key, f.gene_key))).Nodup := by
  have h := expression_fact_uniqueness
    (fun s => if s = "S1" then 1 else 2)
    (fun g => if g = "G1" then 1 else 2) 9 [(1, 1)]
    [⟨"G1", "S1", 5, 0⟩, ⟨"G2", "S1", 7, 0⟩] (by decide) (by decide)
  exact ⟨by decide, by decide, h.1, h.2⟩

theorem sanity_full_pass :
    iter_filtered_expression ["S1", "S2"] ["G1"] ["S1", "S2"]
      [("G1", [some 1, some 2]), ("G2", [some 3, some 4])] none 0 =
      [⟨"G1", "S1", 1, 0⟩, ⟨"G1", "S2", 2, 1⟩] := by decide

theorem sanity_resume_pass :
    iter_filtered_expression ["S1", "S2"] ["G1", "G2"] ["S1", "S2"]
      [("G1", [some 1, some 2]), ("G2", [some 3, some 4])] (some "G1") 1 =
      [⟨"G1", "S2", 2, 1⟩, ⟨"G2", "S1", 3, 0⟩, ⟨"G2", "S2", 4, 1⟩] := by decide

end EtlForAllStudies
